import Mathlib

/-!
Verification of the cash-register core (`change_maker.py`, `storage.py`).

Shallow embedding conventions:
* Python `int` is `Int`; Python floor division `//` is `Int.fdiv`, Python `%`
  (nonnegative remainder for a positive modulus) is `Int.emod`.
* A Python dict mapping face values to amounts is modelled two ways, matching
  how the source uses it: the drawer's `notes` dict always holds every key of
  `NOTE_DENOMS` (it is initialised that way and `state_to_drawer` re-fills the
  keys), so it is a total function `Int → Int` where `.get(d, 0)` is plain
  application; ephemeral breakdown dicts (tender, change, delta) are
  association lists `List (Int × Int)` with the keys pairwise distinct, since a
  dict cannot hold a key twice.
* Raising an exception is `Option`/failure; file contents are
  `Option (List String)` (`none` = the file does not exist).
-/

/-- `NOTE_DENOMS = [20000, 10000, 5000, 2000, 1000, 500, 200]`
(`change_maker.py`, line 35); the list is already sorted in descending order,
so the source's `sorted(NOTE_DENOMS, reverse=True)` is the list itself. -/
def NOTE_DENOMS : List Int := [20000, 10000, 5000, 2000, 1000, 500, 200]

/-- `COIN_MIN_UNIT = 5` (`change_maker.py`, line 37). -/
def COIN_MIN_UNIT : Int := 5

/-- An ephemeral breakdown dict (denomination ↦ count), as an association
list.  Matches the `Dict[int, int]` values produced by `parse_tender` and the
change engine. -/
abbrev Breakdown := List (Int × Int)

/-- `bd.get(d, 0)`: the count stored for `d`, defaulting to `0`. -/
def bdGet (bd : Breakdown) (d : Int) : Int :=
  match bd.find? (fun p => p.1 == d) with
  | some p => p.2
  | none => 0

/-- The keys of a breakdown dict. -/
def bdKeys (bd : Breakdown) : List Int := bd.map Prod.fst

/-- Dict assignment `bd[d] = v`: overwrite the entry if the key is present,
otherwise append it. -/
def bdSet (bd : Breakdown) (d v : Int) : Breakdown :=
  if bd.any (fun p => p.1 == d) then
    bd.map (fun p => if p.1 == d then (d, v) else p)
  else bd ++ [(d, v)]

/-- Dict removal `bd.pop(d, None)`. -/
def bdPop (bd : Breakdown) (d : Int) : Breakdown :=
  bd.filter (fun p => p.1 != d)

/-- `sum(den * cnt for den, cnt in bd.items())`. -/
def bdTotal (bd : Breakdown) : Int :=
  (bd.map (fun p => p.1 * p.2)).sum

/-- The drawer (`Drawer` dataclass, `change_maker.py`, lines 153-156): a count
per denomination plus the aggregated coin-pool amount `apro`.  The `notes`
dict always contains every key of `NOTE_DENOMS`, so it is a total function. -/
structure Drawer where
  notes : Int → Int
  apro : Int

/-- `Drawer.total` (line 158): sum over the note dict plus the pool.  Under
the program's invariant the dict's keys are exactly `NOTE_DENOMS`. -/
def Drawer.total (dw : Drawer) : Int :=
  (NOTE_DENOMS.map (fun d => d * dw.notes d)).sum + dw.apro

/-- `Drawer.add_notes` (lines 161-163): `notes[d] = notes.get(d, 0) + c` for
each entry; no validation of any kind, never fails. -/
def add_notes (dw : Drawer) (bd : Breakdown) : Drawer :=
  { dw with notes := bd.foldl (fun f p => Function.update f p.1 (f p.1 + p.2)) dw.notes }

/-- `Drawer.remove_notes` (lines 165-170): first verify every entry against
stock, raising if any requested count exceeds it, then apply every decrement. -/
def remove_notes (dw : Drawer) (bd : Breakdown) : Option Drawer :=
  if bd.any (fun p => dw.notes p.1 < p.2) then none
  else some
    { dw with notes := bd.foldl (fun f p => Function.update f p.1 (f p.1 - p.2)) dw.notes }

/-- `Drawer.add_apro` (lines 172-175): rejects a negative amount. -/
def add_apro (dw : Drawer) (amount : Int) : Option Drawer :=
  if amount < 0 then none else some { dw with apro := dw.apro + amount }

/-- `Drawer.remove_apro` (lines 177-182): rejects a negative amount and an
amount exceeding the pool. -/
def remove_apro (dw : Drawer) (amount : Int) : Option Drawer :=
  if amount < 0 then none
  else if dw.apro < amount then none
  else some { dw with apro := dw.apro - amount }

/-- The inner `for k in range(max_use, -1, -1)` loop of
`bounded_change_notes.search` (lines 215-222): try `k` pieces of `d`, largest
count first, recursing (via `f`, the search over the remaining denominations)
after each choice; `k = 0` pops `d` from the accumulator. -/
def tryCounts (f : Int → Breakdown → Option Breakdown) (d : Int) (remaining : Int)
    (cur : Breakdown) : Nat → Option Breakdown
  | 0 => f remaining (bdPop cur d)
  | Nat.succ k =>
    match f (remaining - d * ((k : Int) + 1)) (bdSet cur d ((k : Int) + 1)) with
    | some res => some res
    | none => tryCounts f d remaining cur k

/-- `bounded_change_notes.search` (lines 207-223).  `remaining == 0` succeeds
immediately; running out of denominations fails; otherwise the count for the
head denomination is bounded by `min(remaining // d, available.get(d, 0))` and
tried from that maximum down to zero.  A negative bound makes the Python
`range` empty, so nothing is tried at all. -/
def search (avail : Int → Int) : List Int → Int → Breakdown → Option Breakdown
  | [], remaining, cur => if remaining = 0 then some cur else none
  | d :: rest, remaining, cur =>
    if remaining = 0 then some cur
    else
      let maxUse := min (Int.fdiv remaining d) (avail d)
      if maxUse < 0 then none
      else tryCounts (fun r c => search avail rest r c) d remaining cur maxUse.toNat

/-- `bounded_change_notes(amount, available)` (lines 200-225): phase 1 of the
change engine, the stock-bounded all-notes exact search. -/
def bounded_change_notes (amount : Int) (available : Int → Int) : Option Breakdown :=
  search available NOTE_DENOMS amount []

/-- The greedy pass of phase 2 (`main`, lines 509-515): walk the denominations
in descending order, committing `min(remaining // d, notes.get(d, 0))` pieces
whenever that is positive. -/
def greedy_pass (notes : Int → Int) : List Int → (Int → Int) → Int → (Int → Int) × Int
  | [], used, remaining => (used, remaining)
  | d :: rest, used, remaining =>
    let use := min (Int.fdiv remaining d) (notes d)
    if 0 < use then greedy_pass notes rest (Function.update used d use) (remaining - d * use)
    else greedy_pass notes rest used remaining

/-- The `while notes_used[d] > 0` inner relaxation loop (`main`, lines
525-532): return pieces of `d` one at a time, retesting the pool condition
`remaining % COIN_MIN_UNIT == 0 and apro >= remaining` after each unit.
Returns the new count for `d` and the new remainder on success. -/
def relaxDen (apro : Int) (d : Int) : Nat → Int → Option (Int × Int)
  | 0, _ => none
  | Nat.succ c, r =>
    let r' := r + d
    if Int.emod r' COIN_MIN_UNIT = 0 ∧ r' ≤ apro then some ((c : Int), r')
    else relaxDen apro d c r'

/-- The outer relaxation loop (`main`, lines 524-534): for each denomination
in the given (descending) order, run the inner loop; on failure the
denomination has been relaxed to zero and its value returned to `remaining`. -/
def relaxLoop (apro : Int) : List Int → (Int → Int) → Int → Option ((Int → Int) × Int)
  | [], _, _ => none
  | d :: rest, used, r =>
    match relaxDen apro d (used d).toNat r with
    | some (c, r') => some (Function.update used d c, r')
    | none =>
      let used' := if 0 < used d then Function.update used d 0 else used
      relaxLoop apro rest used' (r + d * ((used d).toNat : Int))

/-- `{d: c for d, c in notes_used.items() if c > 0}` (lines 518, 529): the
`notes_used` dict is keyed by `NOTE_DENOMS` in order. -/
def usedToBreakdown (used : Int → Int) : Breakdown :=
  (NOTE_DENOMS.filter (fun d => 0 < used d)).map (fun d => (d, used d))

/-- The whole change engine (`main`, lines 497-535): phase 1, then the greedy
pass with the pool test, then the relaxation loop; `none` is the
`NoFeasibleChange` outcome (lines 535-546).  Returns the notes breakdown and
the pool portion `apro_given`. -/
def change_engine (change : Int) (notes : Int → Int) (apro : Int) :
    Option (Breakdown × Int) :=
  match bounded_change_notes change notes with
  | some br => some (br, 0)
  | none =>
    let gp := greedy_pass notes NOTE_DENOMS (fun _ => 0) change
    if Int.emod gp.2 COIN_MIN_UNIT = 0 ∧ gp.2 ≤ apro then
      some (usedToBreakdown gp.1, gp.2)
    else
      match relaxLoop apro NOTE_DENOMS gp.1 gp.2 with
      | some (used', r') => some (usedToBreakdown used', r')
      | none => none

/-- The inner relaxation loop again, instrumented with the order in which
single units are returned: the first component lists the denomination of each
single-unit relaxation, in order.  The outcome component is exactly that of
`relaxDen`. -/
def relaxDenT (apro : Int) (d : Int) : Nat → Int → List Int × Option (Int × Int)
  | 0, _ => ([], none)
  | Nat.succ c, r =>
    let r' := r + d
    if Int.emod r' COIN_MIN_UNIT = 0 ∧ r' ≤ apro then ([d], some ((c : Int), r'))
    else
      let p := relaxDenT apro d c r'
      (d :: p.1, p.2)

/-- The outer relaxation loop instrumented with the unit-return order; its
outcome component is exactly that of `relaxLoop`. -/
def relaxLoopT (apro : Int) : List Int → (Int → Int) → Int → List Int × Option ((Int → Int) × Int)
  | [], _, _ => ([], none)
  | d :: rest, used, r =>
    match relaxDenT apro d (used d).toNat r with
    | (tr, some (c, r')) => (tr, some (Function.update used d c, r'))
    | (tr, none) =>
      let used' := if 0 < used d then Function.update used d 0 else used
      let p := relaxLoopT apro rest used' (r + d * ((used d).toNat : Int))
      (tr ++ p.1, p.2)

/-- Total number of committed units over the given denominations (negative
counts held by no denomination count as zero, as in the `> 0` loop guards). -/
def usedWeight (denoms : List Int) (used : Int → Int) : Nat :=
  (denoms.map (fun d => (used d).toNat)).sum

/-- The largest denomination of `l` currently committed (`used d > 0`),
computed by folding `max` over the in-use sublist. -/
def maxInUse (used : Int → Int) (l : List Int) : Option Int :=
  (l.filter (fun d => 0 < used d)).foldl
    (fun acc d => match acc with | none => some d | some m => some (max m d)) none

/-- The smallest denomination of `l` currently committed. -/
def minInUse (used : Int → Int) (l : List Int) : Option Int :=
  (l.filter (fun d => 0 < used d)).foldl
    (fun acc d => match acc with | none => some d | some m => some (min m d)) none

/-- Modelled from the spec: one-unit-at-a-time relaxation which at every step
returns a unit of the LARGEST denomination currently in use, retests the pool
condition, and stops on success or once every commitment is zero.  The fuel
argument is consumed once per step; `usedWeight` fuel always suffices. -/
def relaxLargestGo (apro : Int) (denoms : List Int) :
    Nat → (Int → Int) → Int → List Int × Option ((Int → Int) × Int)
  | 0, _, _ => ([], none)
  | Nat.succ fuel, used, r =>
    match maxInUse used denoms with
    | none => ([], none)
    | some d =>
      let r' := r + d
      let used' := Function.update used d (used d - 1)
      if Int.emod r' COIN_MIN_UNIT = 0 ∧ r' ≤ apro then ([d], some (used', r'))
      else
        let p := relaxLargestGo apro denoms fuel used' r'
        (d :: p.1, p.2)

/-- Modelled from the spec: the largest-held-first stepwise relaxation. -/
def relaxLargestFirst (apro : Int) (denoms : List Int) (used : Int → Int) (r : Int) :
    List Int × Option ((Int → Int) × Int) :=
  relaxLargestGo apro denoms (usedWeight denoms used) used r

/-- Modelled from the spec (claim wording): the same stepwise process but
returning at every step a unit of the SMALLEST denomination currently in use. -/
def relaxSmallestGo (apro : Int) (denoms : List Int) :
    Nat → (Int → Int) → Int → List Int × Option ((Int → Int) × Int)
  | 0, _, _ => ([], none)
  | Nat.succ fuel, used, r =>
    match minInUse used denoms with
    | none => ([], none)
    | some d =>
      let r' := r + d
      let used' := Function.update used d (used d - 1)
      if Int.emod r' COIN_MIN_UNIT = 0 ∧ r' ≤ apro then ([d], some (used', r'))
      else
        let p := relaxSmallestGo apro denoms fuel used' r'
        (d :: p.1, p.2)

/-- Modelled from the spec (claim wording): smallest-held-first relaxation. -/
def relaxSmallestFirst (apro : Int) (denoms : List Int) (used : Int → Int) (r : Int) :
    List Int × Option ((Int → Int) × Int) :=
  relaxSmallestGo apro denoms (usedWeight denoms used) used r

/-- One ledger record (`entry` dicts of `main`, lines 474-490 and 572-588). -/
structure TxRec where
  ts : String
  amount_due : Int
  given_notes : Breakdown
  given_apro : Int
  change_notes : Breakdown
  change_apro : Int
  delta_notes : Breakdown
  delta_apro : Int
  total_after : Int
deriving DecidableEq

/-- The `delta.notes` dict of a logged transaction (lines 567-571): over the
union of the tendered and returned keys, keep the nonzero differences.
(Python iterates a `set`; the iteration order of a dict does not affect
lookups, so the deduplicated concatenation order is used here.) -/
def tx_delta (tn gn : Breakdown) : Breakdown :=
  ((bdKeys tn ++ bdKeys gn).dedup).filterMap (fun d =>
    let v := bdGet tn d - bdGet gn d
    if v ≠ 0 then some (d, v) else none)

/-- The transaction step of `main` (lines 454-592), from the point where the
amount due and the parsed tender are in hand: reject a tender below the amount
due; merge the tender into the drawer; on zero change log immediately without
consulting the change engine (lines 468-495); otherwise run the engine, remove
the computed change, and log.  `none` covers every failure path, all of which
leave the drawer as it was (the engine-failure path reverses the merged
tender, lines 536-546). -/
def run_tx (ts : String) (dw : Drawer) (amount : Int) (tn : Breakdown) (ta : Int) :
    Option (Drawer × TxRec) :=
  if bdTotal tn + ta < amount then none
  else
    (add_apro (add_notes dw tn) ta).bind (fun dw2 =>
      if bdTotal tn + ta - amount = 0 then
        some (dw2,
          { ts := ts, amount_due := amount, given_notes := tn, given_apro := ta,
            change_notes := [], change_apro := 0,
            delta_notes := tn, delta_apro := ta, total_after := dw2.total })
      else
        (change_engine (bdTotal tn + ta - amount) dw2.notes dw2.apro).bind (fun brp =>
          (remove_notes dw2 brp.1).bind (fun dw3 =>
            (if brp.2 = 0 then some dw3 else remove_apro dw3 brp.2).bind (fun dw4 =>
              some (dw4,
                { ts := ts, amount_due := amount, given_notes := tn, given_apro := ta,
                  change_notes := brp.1, change_apro := brp.2,
                  delta_notes := tx_delta tn brp.1, delta_apro := ta - brp.2,
                  total_after := dw4.total })))))

/-- The per-denomination inverse-delta subtraction of the undo command
(`main`, lines 362-369): walk `NOTE_DENOMS`, abort as soon as a subtraction
would go negative, otherwise record the new count in the working copy. -/
def undo_notes (delta : Breakdown) : List Int → (Int → Int) → Option (Int → Int)
  | [], f => some f
  | d :: rest, f =>
    let c := f d - bdGet delta d
    if c < 0 then none
    else undo_notes delta rest (Function.update f d c)

/-- Undo's inverse-delta application (`main`, lines 357-377): subtract the
record's note deltas, then the pool delta, failing (`InconsistentLedger`)
without touching the drawer if anything would go negative. -/
def undo_record (dw : Drawer) (r : TxRec) : Option Drawer :=
  match undo_notes r.delta_notes NOTE_DENOMS dw.notes with
  | none => none
  | some f =>
    let a := dw.apro - r.delta_apro
    if a < 0 then none else some { notes := f, apro := a }

/-- `append_txlog` (lines 58-62): append one serialized record as a line,
creating the file when missing. -/
def append_txlog (file : Option (List String)) (line : String) : List String :=
  file.getD [] ++ [line]

/-- Python's `not ln.strip()`: the line is blank, i.e. every character is
whitespace.  (Stated on the character list so that it evaluates.) -/
def isBlankLine (s : String) : Bool := s.data.all (fun c => c.isWhitespace)

/-- The scan of `read_last_tx` over the reversed line list (lines 73-79): skip
blank lines; at the first non-blank line return its parse, or `None` if it
does not parse. -/
def read_last_scan (parse : String → Option TxRec) : List String → Option TxRec
  | [] => none
  | ln :: rest => if isBlankLine ln then read_last_scan parse rest else parse ln

/-- `read_last_tx` (lines 65-79): `None` for a missing file, otherwise scan
the lines from the end.  The JSON parser is a collaborator and is passed in as
`parse`. -/
def read_last_tx (parse : String → Option TxRec) (file : Option (List String)) :
    Option TxRec :=
  match file with
  | none => none
  | some lines => read_last_scan parse lines.reverse

/-- The trailing scan of `truncate_last_tx` (lines 86-93) on the reversed line
list: drop trailing blank lines, then the last non-blank line; `none` means no
non-blank line was found. -/
def truncate_rev : List String → Option (List String)
  | [] => none
  | ln :: rest => if isBlankLine ln then truncate_rev rest else some rest

/-- `truncate_last_tx` (lines 82-94): a missing file and a file with no
non-blank line are left untouched; otherwise everything from the last
non-blank line on is removed. -/
def truncate_last_tx (file : Option (List String)) : Option (List String) :=
  match file with
  | none => none
  | some lines =>
    match truncate_rev lines.reverse with
    | none => some lines
    | some revRest => some revRest.reverse

/-- The undo command's mutation step (`main`, lines 357-389), given the last
record already read: on an inverse-delta underflow the drawer and the log are
returned untouched; otherwise the subtracted drawer and the truncated log. -/
def undo_tx_step (dw : Drawer) (r : TxRec) (log : List String) : Drawer × List String :=
  match undo_record dw r with
  | none => (dw, log)
  | some dw2 => (dw2, (truncate_last_tx (some log)).getD log)

/-- A stored day snapshot (`storage.py` docstring): per-denomination counts
(string keys in the JSON, modelled by their integer face values), the pool
amount and the redundant total. -/
structure StorageState where
  bankjegyek : Breakdown
  apro : Int
  osszesen : Int
deriving DecidableEq

/-- `_normalize_state` (`storage.py`, lines 37-44): start from a dict holding
`0` for every denomination, overlay the stored counts, and recompute the total
from scratch; the stored `osszesen` is never read. -/
def _normalize_state (s : StorageState) : StorageState :=
  let base : Breakdown := NOTE_DENOMS.map (fun d => (d, 0))
  let bk := s.bankjegyek.foldl (fun acc p => bdSet acc p.1 p.2) base
  { bankjegyek := bk, apro := s.apro, osszesen := bdTotal bk + s.apro }

/-- `load_state` (lines 56-68): a missing or unparseable file is `none`
(the parsing collaborator is folded into the `Option` input); a present
snapshot is normalized. -/
def load_state (file : Option StorageState) : Option StorageState :=
  file.map _normalize_state

/-- `save_state` (lines 47-53): the payload actually written to disk is the
normalized state. -/
def save_state (s : StorageState) : StorageState :=
  _normalize_state s

/-! ### Association-list (dict) lemmas -/

theorem bdGet_cons (k v : Int) (t : Breakdown) (d : Int) :
    bdGet ((k, v) :: t) d = if k = d then v else bdGet t d := by
  simp only [bdGet, List.find?]
  by_cases h : k = d
  · simp [h]
  · rw [show ((k, v).1 == d) = false from by simp [h], if_neg h]

theorem bdKeys_cons (p : Int × Int) (t : Breakdown) : bdKeys (p :: t) = p.1 :: bdKeys t := rfl

theorem bdGet_not_mem {bd : Breakdown} {d : Int} (h : d ∉ bdKeys bd) : bdGet bd d = 0 := by
  induction bd with
  | nil => rfl
  | cons p t ih =>
    rw [bdKeys_cons, List.mem_cons] at h
    push_neg at h
    rw [show p = (p.1, p.2) from rfl, bdGet_cons, if_neg (fun hc => h.1 hc.symm)]
    exact ih h.2

theorem mem_bdGet {bd : Breakdown} {k v : Int} (hNd : (bdKeys bd).Nodup)
    (hm : (k, v) ∈ bd) : bdGet bd k = v := by
  induction bd with
  | nil => simp at hm
  | cons p t ih =>
    rw [bdKeys_cons, List.nodup_cons] at hNd
    rcases List.mem_cons.mp hm with h | h
    · subst h
      rw [bdGet_cons, if_pos rfl]
    · have hk : k ∈ bdKeys t := List.mem_map_of_mem Prod.fst h
      have hne : p.1 ≠ k := fun hdd => hNd.1 (hdd ▸ hk)
      rw [show p = (p.1, p.2) from rfl, bdGet_cons, if_neg hne]
      exact ih hNd.2 h

theorem key_mem_entry {bd : Breakdown} {d : Int} (h : d ∈ bdKeys bd) :
    (d, bdGet bd d) ∈ bd := by
  induction bd with
  | nil => simp [bdKeys] at h
  | cons p t ih =>
    rw [bdKeys_cons, List.mem_cons] at h
    by_cases hd : p.1 = d
    · subst hd
      rw [show p = (p.1, p.2) from rfl, bdGet_cons, if_pos rfl]
      exact List.mem_cons_self _ _
    · have h2 : d ∈ bdKeys t := h.resolve_left (fun hc => hd hc.symm)
      rw [show p = (p.1, p.2) from rfl, bdGet_cons, if_neg hd]
      exact List.mem_cons_of_mem _ (ih h2)

theorem foldl_update_get (op : Int → Int → Int) (bd : Breakdown) (f : Int → Int) (d : Int)
    (hNd : (bdKeys bd).Nodup) :
    bd.foldl (fun g p => Function.update g p.1 (op (g p.1) p.2)) f d
      = if d ∈ bdKeys bd then op (f d) (bdGet bd d) else f d := by
  induction bd generalizing f with
  | nil => simp [bdKeys]
  | cons p t ih =>
    rw [bdKeys_cons, List.nodup_cons] at hNd
    rw [List.foldl_cons, ih _ hNd.2]
    rw [bdKeys_cons, show p = (p.1, p.2) from rfl, bdGet_cons]
    by_cases hm : d ∈ bdKeys t
    · have hne : p.1 ≠ d := fun hc => hNd.1 (hc ▸ hm)
      rw [if_pos hm, if_neg hne, if_pos (List.mem_cons_of_mem _ hm),
        Function.update_noteq (fun hc => hne hc.symm)]
    · rw [if_neg hm]
      by_cases hk : p.1 = d
      · subst hk
        rw [if_pos rfl, if_pos (List.mem_cons_self _ _), Function.update_same]
      · rw [if_neg hk, if_neg (by rw [List.mem_cons]; rintro (hc | hc); exact hk hc.symm; exact hm hc),
          Function.update_noteq (fun hc => hk hc.symm)]
/-! ### Drawer operation lemmas -/

theorem add_notes_get {dw : Drawer} {bd : Breakdown} (hNd : (bdKeys bd).Nodup) (d : Int) :
    (add_notes dw bd).notes d = dw.notes d + bdGet bd d := by
  show bd.foldl (fun g p => Function.update g p.1 (g p.1 + p.2)) dw.notes d = _
  rw [foldl_update_get (· + ·) bd dw.notes d hNd]
  by_cases h : d ∈ bdKeys bd
  · rw [if_pos h]
  · rw [if_neg h, bdGet_not_mem h, add_zero]

theorem add_notes_apro (dw : Drawer) (bd : Breakdown) : (add_notes dw bd).apro = dw.apro := rfl

theorem remove_notes_none_iff (dw : Drawer) (bd : Breakdown) :
    remove_notes dw bd = none ↔ ∃ p ∈ bd, dw.notes p.1 < p.2 := by
  unfold remove_notes
  by_cases h : bd.any (fun p => dw.notes p.1 < p.2)
  · rw [if_pos h]
    simpa using h
  · rw [if_neg h]
    simp only [List.any_eq_true, decide_eq_true_eq] at h
    simpa using h

theorem remove_notes_get {dw dw' : Drawer} {bd : Breakdown} (hNd : (bdKeys bd).Nodup)
    (h : remove_notes dw bd = some dw') :
    (∀ d, dw'.notes d = dw.notes d - bdGet bd d) ∧ dw'.apro = dw.apro := by
  unfold remove_notes at h
  by_cases hc : bd.any (fun p => dw.notes p.1 < p.2)
  · rw [if_pos hc] at h; exact absurd h (by simp)
  · rw [if_neg hc] at h
    obtain rfl := Option.some.injEq .. ▸ h.symm
    refine ⟨fun d => ?_, rfl⟩
    show bd.foldl (fun g p => Function.update g p.1 (g p.1 - p.2)) dw.notes d = _
    rw [foldl_update_get (· - ·) bd dw.notes d hNd]
    by_cases hm : d ∈ bdKeys bd
    · rw [if_pos hm]
    · rw [if_neg hm, bdGet_not_mem hm, sub_zero]

/-- A drawer with nothing in it, the `Drawer()` default. -/
def emptyDrawer : Drawer := { notes := fun _ => 0, apro := 0 }

/-- Claim C6, counterexample: `add_notes` applied to a breakdown holding the
negative count `-1` for denomination 200 changes the drawer (the count drops
to `-1`) instead of failing with `InvalidQuantity` and leaving the drawer
unchanged: `Drawer.add_notes` performs no validation at all. -/
theorem claim_C6_cex :
    (add_notes emptyDrawer [((200 : Int), (-1 : Int))]).notes 200 ≠ emptyDrawer.notes 200 := by
  decide

/-- Claim C6 (amended): `addDiscrete` never rejects anything: for every
breakdown — negative counts included — it increases each named denomination's
count by the given (possibly negative) amount, leaves every other count and
the pool unchanged, and always succeeds. -/
theorem claim_C6 (dw : Drawer) (bd : Breakdown) (hNd : (bdKeys bd).Nodup) :
    (∀ d, (add_notes dw bd).notes d = dw.notes d + bdGet bd d) ∧
      (add_notes dw bd).apro = dw.apro :=
  ⟨fun d => add_notes_get hNd d, rfl⟩

/-- Witness for C6 at a concrete input. -/
theorem claim_C6_witness :
    (∀ d, (add_notes emptyDrawer [((500 : Int), 2)]).notes d = emptyDrawer.notes d + bdGet [((500 : Int), 2)] d) ∧
      (add_notes emptyDrawer [((500 : Int), 2)]).apro = emptyDrawer.apro :=
  claim_C6 emptyDrawer [((500 : Int), 2)] (by decide)

/-- Claim C7: `removeDiscrete` fails exactly when some requested count exceeds
stock, in which case nothing is modified (the Option-failure returns no new
drawer; the source verifies every denomination before applying any decrement);
on success every listed denomination is decremented by the requested count and
everything else, the pool included, is untouched. -/
theorem claim_C7 (dw : Drawer) (bd : Breakdown) (hNd : (bdKeys bd).Nodup) :
    (remove_notes dw bd = none ↔ ∃ p ∈ bd, dw.notes p.1 < p.2) ∧
      (∀ dw', remove_notes dw bd = some dw' →
        (∀ d, dw'.notes d = dw.notes d - bdGet bd d) ∧ dw'.apro = dw.apro) :=
  ⟨remove_notes_none_iff dw bd, fun _ h => remove_notes_get hNd h⟩

/-- Witness for C7 at a concrete input. -/
theorem claim_C7_witness :
    (remove_notes emptyDrawer [((500 : Int), 1)] = none ↔
        ∃ p ∈ [((500 : Int), 1)], emptyDrawer.notes p.1 < p.2) ∧
      (∀ dw', remove_notes emptyDrawer [((500 : Int), 1)] = some dw' →
        (∀ d, dw'.notes d = emptyDrawer.notes d - bdGet [((500 : Int), 1)] d) ∧
          dw'.apro = emptyDrawer.apro) :=
  claim_C7 emptyDrawer [((500 : Int), 1)] (by decide)
/-! ### Ledger reading (C8) -/

theorem read_last_scan_eq (parse : String → Option TxRec) (L : List String) :
    read_last_scan parse L = (L.find? (fun s => !isBlankLine s)).bind parse := by
  induction L with
  | nil => rfl
  | cons ln rest ih =>
    by_cases h : isBlankLine ln
    · rw [read_last_scan, if_pos h, ih, List.find?_cons_of_neg _ (by simp [h])]
    · rw [read_last_scan, if_neg h, List.find?_cons_of_pos _ (by simp [h])]
      rfl

/-- Claim C8: `readLast` is total (the embedding is a total function) and
returns: `none` for a missing file (`file = none`, hence `getD` gives `[]`),
`none` when no non-blank line exists (`find?` over the reversed lines fails),
`none` when the last non-blank line does not parse (`bind` of a failing
`parse`), and otherwise the parse of the last non-blank line. -/
theorem claim_C8 (parse : String → Option TxRec) (file : Option (List String)) :
    read_last_tx parse file
      = ((file.getD []).reverse.find? (fun s => !isBlankLine s)).bind parse := by
  cases file with
  | none => rfl
  | some lines => exact read_last_scan_eq parse lines.reverse

/-! ### Storage normalization (C9) -/

theorem bdKeys_bdSet (bd : Breakdown) (k v : Int) :
    bdKeys (bdSet bd k v) = bdKeys bd ∨ bdKeys (bdSet bd k v) = bdKeys bd ++ [k] := by
  unfold bdSet
  by_cases h : bd.any (fun p => p.1 == k)
  · left
    rw [if_pos h]
    unfold bdKeys
    rw [List.map_map]
    apply List.map_congr_left
    intro p _
    by_cases hp : p.1 = k <;> simp [hp]
  · right
    rw [if_neg h]
    unfold bdKeys
    simp

theorem mem_bdKeys_bdSet {bd : Breakdown} {d : Int} (k v : Int) (h : d ∈ bdKeys bd) :
    d ∈ bdKeys (bdSet bd k v) := by
  rcases bdKeys_bdSet bd k v with he | he <;> rw [he]
  · exact h
  · exact List.mem_append_left _ h

theorem mem_bdKeys_foldl_bdSet (l : Breakdown) :
    ∀ (acc : Breakdown) (d : Int), d ∈ bdKeys acc →
      d ∈ bdKeys (l.foldl (fun acc p => bdSet acc p.1 p.2) acc) := by
  induction l with
  | nil => intro acc d h; exact h
  | cons p t ih =>
    intro acc d h
    exact ih _ d (mem_bdKeys_bdSet p.1 p.2 h)

/-- Claim C9: the normalized snapshot's stored total always equals the
recomputed sum of face value times count over its entries plus the pool;
every denomination of `NOTE_DENOMS` is present as a key (missing ones having
been filled with zero); the result is completely independent of the total
found in storage; and both `load_state` and `save_state` factor through this
normalization, so an inconsistent stored total can never survive a load or a
save. -/
theorem claim_C9 (s : StorageState) :
    (_normalize_state s).osszesen
        = bdTotal (_normalize_state s).bankjegyek + (_normalize_state s).apro ∧
      (∀ d ∈ NOTE_DENOMS, d ∈ bdKeys (_normalize_state s).bankjegyek) ∧
      (∀ t, _normalize_state { s with osszesen := t } = _normalize_state s) ∧
      load_state (some s) = some (_normalize_state s) ∧
      save_state s = _normalize_state s := by
  refine ⟨rfl, ?_, fun t => rfl, rfl, rfl⟩
  intro d hd
  apply mem_bdKeys_foldl_bdSet
  show d ∈ bdKeys (NOTE_DENOMS.map (fun d => (d, 0)))
  unfold bdKeys
  rw [List.map_map]
  simpa using hd
/-! ### Undo (C5) -/

theorem undo_notes_spec (delta : Breakdown) :
    ∀ (L : List Int) (f : Int → Int), L.Nodup →
      (undo_notes delta L f = none ↔ ∃ d ∈ L, f d - bdGet delta d < 0) ∧
      (∀ g, undo_notes delta L f = some g →
        (∀ d ∈ L, g d = f d - bdGet delta d) ∧ (∀ d, d ∉ L → g d = f d)) := by
  intro L
  induction L with
  | nil =>
    intro f _
    refine ⟨by simp [undo_notes], fun g hg => ?_⟩
    obtain rfl : f = g := by simpa [undo_notes] using hg
    exact ⟨by simp, fun d _ => rfl⟩
  | cons d0 t ih =>
    intro f hNd
    rw [List.nodup_cons] at hNd
    by_cases hneg : f d0 - bdGet delta d0 < 0
    · constructor
      · rw [undo_notes, if_pos hneg]
        simp only [true_iff]
        exact ⟨d0, List.mem_cons_self _ _, hneg⟩
      · intro g hg
        rw [undo_notes, if_pos hneg] at hg
        exact absurd hg (by simp)
    · have hup : ∀ d ∈ t, Function.update f d0 (f d0 - bdGet delta d0) d = f d := by
        intro d hd
        refine Function.update_noteq (fun hc => hNd.1 ?_) _ f
        rw [← hc]
        exact hd
      obtain ⟨ihn, ihs⟩ := ih (Function.update f d0 (f d0 - bdGet delta d0)) hNd.2
      constructor
      · rw [undo_notes, if_neg hneg, ihn]
        constructor
        · rintro ⟨d, hd, hlt⟩
          exact ⟨d, List.mem_cons_of_mem _ hd, by rwa [hup d hd] at hlt⟩
        · rintro ⟨d, hd, hlt⟩
          rcases List.mem_cons.mp hd with rfl | hd'
          · exact absurd hlt hneg
          · exact ⟨d, hd', by rwa [hup d hd']⟩
      · intro g hg
        rw [undo_notes, if_neg hneg] at hg
        obtain ⟨hin, hout⟩ := ihs g hg
        constructor
        · intro d hd
          rcases List.mem_cons.mp hd with rfl | hd'
          · rw [hout d hNd.1, Function.update_same]
          · rw [hin d hd', hup d hd']
        · intro d hd
          rw [List.mem_cons] at hd
          push_neg at hd
          rw [hout d hd.2, Function.update_noteq hd.1]

theorem truncate_rev_append_blanks {bl : List String} (l : List String)
    (h : ∀ b ∈ bl, isBlankLine b) : truncate_rev (bl ++ l) = truncate_rev l := by
  induction bl with
  | nil => rfl
  | cons b t ih =>
    rw [List.cons_append, truncate_rev, if_pos (h b (List.mem_cons_self _ _))]
    exact ih (fun b hb => h b (List.mem_cons_of_mem _ hb))

/-- Claim C5: undo's inverse-delta application is all-or-nothing.  If
subtracting the record's delta would make any denomination count or the pool
negative, the drawer and the log come back exactly as they were — nothing is
subtracted and nothing is truncated.  Otherwise every subtraction is applied
(each `NOTE_DENOMS` count drops by its delta, no other count and nothing else
changes, the pool drops by the pool delta) and the log is truncated; the
truncation removes exactly the most recent entry: for a log consisting of
earlier lines, a final non-blank record line and trailing blank lines, it
yields precisely the earlier lines. -/
theorem claim_C5 (dw : Drawer) (r : TxRec) (log : List String) :
    ((∃ d ∈ NOTE_DENOMS, dw.notes d - bdGet r.delta_notes d < 0) ∨
        dw.apro - r.delta_apro < 0 →
      undo_tx_step dw r log = (dw, log)) ∧
    (¬((∃ d ∈ NOTE_DENOMS, dw.notes d - bdGet r.delta_notes d < 0) ∨
        dw.apro - r.delta_apro < 0) →
      ∃ dw2, undo_tx_step dw r log = (dw2, (truncate_last_tx (some log)).getD log) ∧
        (∀ d ∈ NOTE_DENOMS, dw2.notes d = dw.notes d - bdGet r.delta_notes d) ∧
        (∀ d, d ∉ NOTE_DENOMS → dw2.notes d = dw.notes d) ∧
        dw2.apro = dw.apro - r.delta_apro) ∧
    (∀ (pre : List String) (e : String) (blanks : List String),
      (∀ b ∈ blanks, isBlankLine b) → ¬isBlankLine e →
      truncate_last_tx (some (pre ++ e :: blanks)) = some pre) := by
  have hNd : NOTE_DENOMS.Nodup := by decide
  obtain ⟨hiff, hsome⟩ := undo_notes_spec r.delta_notes NOTE_DENOMS dw.notes hNd
  refine ⟨?_, ?_, ?_⟩
  · rintro (hn | ha)
    · rw [undo_tx_step, undo_record, hiff.mpr hn]
    · cases hu : undo_notes r.delta_notes NOTE_DENOMS dw.notes with
      | none => rw [undo_tx_step, undo_record, hu]
      | some g => simp [undo_tx_step, undo_record, hu, ha]
  · intro hcond
    push_neg at hcond
    cases hu : undo_notes r.delta_notes NOTE_DENOMS dw.notes with
    | none =>
      obtain ⟨d, hd, hlt⟩ := hiff.mp hu
      exact absurd hlt (by simpa using hcond.1 d hd)
    | some g =>
      obtain ⟨hin, hout⟩ := hsome g hu
      refine ⟨{ notes := g, apro := dw.apro - r.delta_apro }, ?_, hin, hout, rfl⟩
      simp [undo_tx_step, undo_record, hu, not_lt.mpr hcond.2]
  · intro pre e blanks hb he
    have h1 : truncate_rev (blanks.reverse ++ e :: pre.reverse) = some pre.reverse := by
      rw [truncate_rev_append_blanks _ (by simpa using hb), truncate_rev, if_neg he]
    simp [truncate_last_tx, h1]

/-- Witness for C5: one concrete failing undo (drawer and log untouched) and
one concrete truncation removing exactly the final record line. -/
theorem claim_C5_witness :
    undo_tx_step emptyDrawer
        { ts := "t", amount_due := 0, given_notes := [], given_apro := 0,
          change_notes := [], change_apro := 0,
          delta_notes := [((500 : Int), 1)], delta_apro := 0, total_after := 0 }
        ["a"] = (emptyDrawer, ["a"]) ∧
    truncate_last_tx (some (["x", "y"] ++ "z" :: [""])) = some ["x", "y"] := by
  constructor
  · exact (claim_C5 emptyDrawer _ ["a"]).1 (Or.inl ⟨500, by decide, by decide⟩)
  · exact (claim_C5 emptyDrawer
      { ts := "t", amount_due := 0, given_notes := [], given_apro := 0,
        change_notes := [], change_apro := 0,
        delta_notes := [], delta_apro := 0, total_after := 0 } []).2.2
      ["x", "y"] "z" [""] (by intro b hb; simp at hb; rw [hb]; decide) (by decide)
/-! ### The zero-change transaction path (C10) -/

/-- Claim C10: when the tendered total equals the amount due, the transaction
succeeds on the zero-change branch, which never consults the change engine:
the drawer gains exactly the tendered note counts and pool amount, nothing is
removed, and the appended record has an empty returned breakdown and a delta
equal to the tendered breakdown. -/
theorem claim_C10 (ts : String) (dw : Drawer) (amount : Int) (tn : Breakdown) (ta : Int)
    (hNd : (bdKeys tn).Nodup) (hta : 0 ≤ ta) (heq : bdTotal tn + ta = amount) :
    ∃ dw2 rec, run_tx ts dw amount tn ta = some (dw2, rec) ∧
      (∀ d, dw2.notes d = dw.notes d + bdGet tn d) ∧
      dw2.apro = dw.apro + ta ∧
      rec.given_notes = tn ∧ rec.given_apro = ta ∧
      rec.change_notes = [] ∧ rec.change_apro = 0 ∧
      rec.delta_notes = tn ∧ rec.delta_apro = ta := by
  have hadd : add_apro (add_notes dw tn) ta
      = some { notes := (add_notes dw tn).notes, apro := dw.apro + ta } := by
    rw [add_apro, if_neg (not_lt.mpr hta)]
    rfl
  refine ⟨{ notes := (add_notes dw tn).notes, apro := dw.apro + ta },
    { ts := ts, amount_due := amount, given_notes := tn, given_apro := ta,
      change_notes := [], change_apro := 0, delta_notes := tn, delta_apro := ta,
      total_after :=
        ({ notes := (add_notes dw tn).notes, apro := dw.apro + ta } : Drawer).total },
    ?_, fun d => add_notes_get hNd d, rfl, rfl, rfl, rfl, rfl, rfl, rfl⟩
  rw [run_tx]
  rw [if_neg (by rw [heq]; exact lt_irrefl amount), hadd, Option.some_bind]
  simp only [heq, sub_self, if_pos rfl, if_true]

/-- Witness for C10 at a concrete input. -/
theorem claim_C10_witness :
    ∃ dw2 rec, run_tx "t" emptyDrawer 2000 [((2000 : Int), 1)] 0 = some (dw2, rec) ∧
      (∀ d, dw2.notes d = emptyDrawer.notes d + bdGet [((2000 : Int), 1)] d) ∧
      dw2.apro = emptyDrawer.apro + 0 ∧
      rec.given_notes = [((2000 : Int), 1)] ∧ rec.given_apro = 0 ∧
      rec.change_notes = [] ∧ rec.change_apro = 0 ∧
      rec.delta_notes = [((2000 : Int), 1)] ∧ rec.delta_apro = 0 :=
  claim_C10 "t" emptyDrawer 2000 [((2000 : Int), 1)] 0 (by decide) (by decide) (by decide)
/-! ### Phase-1 search lemmas (C1, C2) -/

theorem bdPop_not_mem {bd : Breakdown} {d : Int} (h : d ∉ bdKeys bd) : bdPop bd d = bd := by
  apply List.filter_eq_self.mpr
  intro p hp
  have hne : p.1 ≠ d := fun hc => h (hc ▸ List.mem_map_of_mem Prod.fst hp)
  simpa using hne

theorem bdSet_not_mem {bd : Breakdown} {d : Int} (v : Int) (h : d ∉ bdKeys bd) :
    bdSet bd d v = bd ++ [(d, v)] := by
  unfold bdSet
  rw [if_neg]
  simp only [List.any_eq_true, beq_iff_eq, not_exists, not_and]
  intro p hp hc
  exact h (hc ▸ List.mem_map_of_mem Prod.fst hp)

theorem bdTotal_append_single (bd : Breakdown) (d v : Int) :
    bdTotal (bd ++ [(d, v)]) = bdTotal bd + d * v := by
  simp [bdTotal]

theorem bdGet_append_single_ne {bd : Breakdown} {d x : Int} (v : Int) (h : x ≠ d) :
    bdGet (bd ++ [(d, v)]) x = bdGet bd x := by
  induction bd with
  | nil =>
    show bdGet [(d, v)] x = bdGet [] x
    rw [bdGet_cons, if_neg (fun hc => h hc.symm)]
  | cons p t ih =>
    rw [List.cons_append, show p = (p.1, p.2) from rfl, bdGet_cons, bdGet_cons, ih]

theorem bdGet_append_single_self {bd : Breakdown} {d : Int} (v : Int) (h : d ∉ bdKeys bd) :
    bdGet (bd ++ [(d, v)]) d = v := by
  induction bd with
  | nil => rw [List.nil_append, bdGet_cons, if_pos rfl]
  | cons p t ih =>
    rw [bdKeys_cons, List.mem_cons] at h
    push_neg at h
    rw [List.cons_append, show p = (p.1, p.2) from rfl, bdGet_cons,
      if_neg (fun hc => h.1 hc.symm)]
    exact ih h.2

theorem bdKeys_append_single (bd : Breakdown) (d v : Int) :
    bdKeys (bd ++ [(d, v)]) = bdKeys bd ++ [d] := by
  simp [bdKeys]

theorem tryCounts_eq_some {f : Int → Breakdown → Option Breakdown} {d remaining : Int}
    {cur br : Breakdown} :
    ∀ K, tryCounts f d remaining cur K = some br →
      ∃ k : Nat, k ≤ K ∧
        f (remaining - d * (k : Int))
          (if k = 0 then bdPop cur d else bdSet cur d (k : Int)) = some br := by
  intro K
  induction K with
  | zero =>
    intro h
    exact ⟨0, le_refl 0, by simpa using h⟩
  | succ k ih =>
    intro h
    rw [tryCounts] at h
    cases hm : f (remaining - d * ((k : Int) + 1)) (bdSet cur d ((k : Int) + 1)) with
    | some res =>
      simp only [hm] at h
      refine ⟨k + 1, le_refl _, ?_⟩
      rw [if_neg (Nat.succ_ne_zero k)]
      push_cast
      rw [hm, h]
    | none =>
      simp only [hm] at h
      obtain ⟨k', hk', hfk⟩ := ih h
      exact ⟨k', le_trans hk' (Nat.le_succ k), hfk⟩

theorem tryCounts_ne_none {f : Int → Breakdown → Option Breakdown} {d remaining : Int}
    {cur : Breakdown} :
    ∀ (K k : Nat), k ≤ K →
      f (remaining - d * (k : Int))
          (if k = 0 then bdPop cur d else bdSet cur d (k : Int)) ≠ none →
      tryCounts f d remaining cur K ≠ none := by
  intro K
  induction K with
  | zero =>
    intro k hk hf
    obtain rfl := Nat.le_zero.mp hk
    simpa using hf
  | succ K ih =>
    intro k hk hf
    rw [tryCounts]
    cases hm : f (remaining - d * ((K : Int) + 1)) (bdSet cur d ((K : Int) + 1)) with
    | some res => simp
    | none =>
      by_cases hkK : k = K + 1
      · subst hkK
        rw [if_neg (Nat.succ_ne_zero K)] at hf
        push_cast at hf
        exact absurd hm hf
      · exact ih k (Nat.lt_succ_iff.mp (lt_of_le_of_ne hk hkK)) hf

theorem search_sound (avail : Int → Int) :
    ∀ (denoms : List Int) (remaining : Int) (cur br : Breakdown),
      denoms.Nodup → (∀ x ∈ denoms, x ∉ bdKeys cur) → (bdKeys cur).Nodup →
      search avail denoms remaining cur = some br →
      bdTotal br = bdTotal cur + remaining ∧
      (bdKeys br).Nodup ∧
      (∀ x ∈ bdKeys br, x ∈ denoms ∨ x ∈ bdKeys cur) ∧
      (∀ p ∈ br, p.1 ∈ denoms → p.2 ≤ avail p.1) ∧
      (∀ x, x ∉ denoms → bdGet br x = bdGet cur x) := by
  intro denoms
  induction denoms with
  | nil =>
    intro remaining cur br _ _ hNdc h
    rw [search] at h
    by_cases hr : remaining = 0
    · rw [if_pos hr] at h
      injection h with h
      subst h
      subst hr
      exact ⟨by ring, hNdc, fun x hx => Or.inr hx, fun p _ hp => absurd hp (by simp),
        fun x _ => rfl⟩
    · rw [if_neg hr] at h
      cases h
  | cons d rest ih =>
    intro remaining cur br hNd hdisj hNdc h
    rw [List.nodup_cons] at hNd
    rw [search] at h
    by_cases hr : remaining = 0
    · rw [if_pos hr] at h
      injection h with h
      subst h
      subst hr
      refine ⟨by ring, hNdc, fun x hx => Or.inr hx, fun p hp hmem => ?_, fun x _ => rfl⟩
      exact absurd (List.mem_map_of_mem Prod.fst hp) (hdisj p.1 hmem)
    · rw [if_neg hr] at h
      by_cases hneg : min (Int.fdiv remaining d) (avail d) < 0
      · rw [if_pos hneg] at h
        cases h
      · rw [if_neg hneg] at h
        obtain ⟨k, hk, hf⟩ := tryCounts_eq_some _ h
        have hd_not_cur : d ∉ bdKeys cur := hdisj d (List.mem_cons_self _ _)
        have hdisj' : ∀ x ∈ rest, x ∉ bdKeys cur :=
          fun x hx => hdisj x (List.mem_cons_of_mem _ hx)
        by_cases hk0 : k = 0
        · subst hk0
          rw [if_pos rfl, bdPop_not_mem hd_not_cur] at hf
          rw [Nat.cast_zero, mul_zero, sub_zero] at hf
          obtain ⟨c1, c2, c3, c4, c5⟩ := ih remaining cur br hNd.2 hdisj' hNdc hf
          refine ⟨c1, c2, fun x hx => ?_, fun p hp hmem => ?_, fun x hx => ?_⟩
          · rcases c3 x hx with h' | h'
            · exact Or.inl (List.mem_cons_of_mem _ h')
            · exact Or.inr h'
          · rcases List.mem_cons.mp hmem with hpd | hmem'
            · rcases c3 p.1 (List.mem_map_of_mem Prod.fst hp) with h' | h'
              · exact absurd h' (hpd ▸ hNd.1)
              · exact absurd h' (hpd ▸ hd_not_cur)
            · exact c4 p hp hmem'
          · exact c5 x (fun hc => hx (List.mem_cons_of_mem _ hc))
        · rw [if_neg hk0, bdSet_not_mem _ hd_not_cur] at hf
          have hcurNd : (bdKeys (cur ++ [(d, (k : Int))])).Nodup := by
            rw [bdKeys_append_single]
            refine List.Nodup.append hNdc (List.nodup_singleton d) ?_
            intro x hx hxd
            rw [List.mem_singleton] at hxd
            exact hd_not_cur (hxd ▸ hx)
          have hdisj'' : ∀ x ∈ rest, x ∉ bdKeys (cur ++ [(d, (k : Int))]) := by
            intro x hx
            rw [bdKeys_append_single, List.mem_append, List.mem_singleton]
            rintro (hc | rfl)
            · exact hdisj' x hx hc
            · exact hNd.1 hx
          obtain ⟨c1, c2, c3, c4, c5⟩ :=
            ih (remaining - d * (k : Int)) (cur ++ [(d, (k : Int))]) br hNd.2 hdisj'' hcurNd hf
          have hk_le : (k : Int) ≤ min (Int.fdiv remaining d) (avail d) := by
            calc (k : Int) ≤ ((min (Int.fdiv remaining d) (avail d)).toNat : Int) := by
                  exact_mod_cast hk
              _ = min (Int.fdiv remaining d) (avail d) :=
                  Int.toNat_of_nonneg (not_lt.mp hneg)
          have hget_d : bdGet br d = (k : Int) := by
            rw [c5 d hNd.1, bdGet_append_single_self _ hd_not_cur]
          refine ⟨?_, c2, fun x hx => ?_, fun p hp hmem => ?_, fun x hx => ?_⟩
          · rw [c1, bdTotal_append_single]
            ring
          · rcases c3 x hx with h' | h'
            · exact Or.inl (List.mem_cons_of_mem _ h')
            · rw [bdKeys_append_single, List.mem_append, List.mem_singleton] at h'
              rcases h' with h' | rfl
              · exact Or.inr h'
              · exact Or.inl (List.mem_cons_self _ _)
          · rcases List.mem_cons.mp hmem with hpd | hmem'
            · have hval : p.2 = bdGet br p.1 := (mem_bdGet c2 (by
                rw [show p = (p.1, p.2) from rfl] at hp
                exact hp)).symm
              rw [hval, hpd, hget_d]
              exact le_trans hk_le (min_le_right _ _)
            · exact c4 p hp hmem'
          · have hxd : x ≠ d := fun hc => hx (hc ▸ List.mem_cons_self _ _)
            rw [c5 x (fun hc => hx (List.mem_cons_of_mem _ hc)),
              bdGet_append_single_ne _ hxd]

theorem search_complete (avail : Int → Int) :
    ∀ (denoms : List Int) (remaining : Int) (cur : Breakdown),
      (∀ x ∈ denoms, 0 < x) →
      (∃ c : Int → Nat, (∀ x ∈ denoms, ((c x : Int)) ≤ avail x) ∧
        (denoms.map (fun x => x * (c x : Int))).sum = remaining) →
      search avail denoms remaining cur ≠ none := by
  intro denoms
  induction denoms with
  | nil =>
    rintro remaining cur _ ⟨c, _, hsum⟩
    rw [search, if_pos (by simpa using hsum.symm)]
    simp
  | cons d rest ih =>
    rintro remaining cur hpos ⟨c, hcap, hsum⟩
    rw [search]
    by_cases hr : remaining = 0
    · rw [if_pos hr]
      simp
    · rw [if_neg hr]
      rw [List.map_cons, List.sum_cons] at hsum
      have hd_pos : 0 < d := hpos d (List.mem_cons_self _ _)
      have hrest_nonneg : 0 ≤ (rest.map (fun x => x * (c x : Int))).sum := by
        apply List.sum_nonneg
        intro t ht
        obtain ⟨x, hx, rfl⟩ := List.mem_map.mp ht
        exact mul_nonneg (le_of_lt (hpos x (List.mem_cons_of_mem _ hx))) (Int.natCast_nonneg _)
      have hdk : (c d : Int) * d ≤ remaining := by
        rw [mul_comm]
        omega
      have hfdiv : (c d : Int) ≤ Int.fdiv remaining d := by
        rw [Int.fdiv_eq_ediv _ (le_of_lt hd_pos)]
        exact (Int.le_ediv_iff_mul_le hd_pos).mpr hdk
      have hmin : (c d : Int) ≤ min (Int.fdiv remaining d) (avail d) :=
        le_min hfdiv (hcap d (List.mem_cons_self _ _))
      have hnneg : ¬ min (Int.fdiv remaining d) (avail d) < 0 :=
        not_lt.mpr (le_trans (Int.natCast_nonneg _) hmin)
      rw [if_neg hnneg]
      refine tryCounts_ne_none _ (c d) ?_ ?_
      · exact_mod_cast (Int.toNat_le_toNat hmin).trans_eq' (by simp)
      · apply ih (remaining - d * (c d : Int)) _
          (fun x hx => hpos x (List.mem_cons_of_mem _ hx))
        refine ⟨c, fun x hx => hcap x (List.mem_cons_of_mem _ hx), ?_⟩
        omega


/-! ### Phase-2 greedy and relaxation lemmas (C1, C2) -/

theorem mem_of_eq_mem {x d : Int} {l : List Int} (hc : x = d) (hx : x ∈ l) : d ∈ l := by
  rw [hc] at hx
  exact hx

/-- The value committed over a denomination list by a counts function. -/
def sumW (L : List Int) (u : Int → Int) : Int :=
  (L.map (fun d => d * u d)).sum

theorem sumW_update {L : List Int} {d : Int} (hL : L.Nodup) (hd : d ∈ L)
    (u : Int → Int) (v : Int) :
    sumW L (Function.update u d v) = sumW L u + d * (v - u d) := by
  induction L with
  | nil => simp at hd
  | cons a t ih =>
    rw [List.nodup_cons] at hL
    simp only [sumW, List.map_cons, List.sum_cons] at ih ⊢
    by_cases had : a = d
    · subst had
      have hmap : List.map (fun x => x * Function.update u a v x) t
          = List.map (fun x => x * u x) t :=
        List.map_congr_left fun x hx => by
          rw [Function.update_noteq (fun hc => hL.1 (mem_of_eq_mem hc hx))]
      rw [hmap, Function.update_same]
      ring
    · have hdt : d ∈ t := (List.mem_cons.mp hd).resolve_left (fun hc => had hc.symm)
      rw [Function.update_noteq had, ih hL.2 hdt]
      ring

theorem greedy_spec (notes : Int → Int) (L : List Int) (hL : L.Nodup) :
    ∀ (l : List Int), l.Nodup → (∀ x ∈ l, x ∈ L) →
      ∀ (used : Int → Int) (remaining : Int), (∀ x ∈ l, used x = 0) →
      sumW L (greedy_pass notes l used remaining).1 + (greedy_pass notes l used remaining).2
        = sumW L used + remaining ∧
      (∀ x, (greedy_pass notes l used remaining).1 x = used x ∨
        (x ∈ l ∧ 0 < (greedy_pass notes l used remaining).1 x ∧
          (greedy_pass notes l used remaining).1 x ≤ notes x)) := by
  intro l
  induction l with
  | nil =>
    intro _ _ used remaining _
    exact ⟨rfl, fun x => Or.inl rfl⟩
  | cons d rest ih =>
    intro hNd hsub used remaining hz
    rw [List.nodup_cons] at hNd
    rw [greedy_pass]
    by_cases hu : 0 < min (Int.fdiv remaining d) (notes d)
    · rw [if_pos hu]
      have hz' : ∀ x ∈ rest,
          Function.update used d (min (Int.fdiv remaining d) (notes d)) x = 0 := by
        intro x hx
        rw [Function.update_noteq (fun hc => hNd.1 (mem_of_eq_mem hc hx))]
        exact hz x (List.mem_cons_of_mem _ hx)
      obtain ⟨ihc, ihb⟩ := ih hNd.2 (fun x hx => hsub x (List.mem_cons_of_mem _ hx)) _ _ hz'
      constructor
      · rw [ihc, sumW_update hL (hsub d (List.mem_cons_self _ _)),
          hz d (List.mem_cons_self _ _)]
        ring
      · intro x
        rcases ihb x with hb | hb
        · by_cases hxd : x = d
          · subst hxd
            rw [Function.update_same] at hb
            exact Or.inr ⟨List.mem_cons_self _ _, by rw [hb]; exact hu,
              by rw [hb]; exact min_le_right _ _⟩
          · rw [Function.update_noteq hxd] at hb
            exact Or.inl hb
        · exact Or.inr ⟨List.mem_cons_of_mem _ hb.1, hb.2⟩
    · rw [if_neg hu]
      obtain ⟨ihc, ihb⟩ := ih hNd.2 (fun x hx => hsub x (List.mem_cons_of_mem _ hx)) used
        remaining (fun x hx => hz x (List.mem_cons_of_mem _ hx))
      refine ⟨ihc, fun x => ?_⟩
      rcases ihb x with hb | hb
      · exact Or.inl hb
      · exact Or.inr ⟨List.mem_cons_of_mem _ hb.1, hb.2⟩

theorem relaxDen_spec (apro d : Int) :
    ∀ (n : Nat) (r c r' : Int), relaxDen apro d n r = some (c, r') →
      0 ≤ c ∧ c ≤ (n : Int) ∧ d * c + r' = d * (n : Int) + r ∧
      Int.emod r' COIN_MIN_UNIT = 0 ∧ r' ≤ apro := by
  intro n
  induction n with
  | zero => intro r c r' h; cases h
  | succ m ih =>
    intro r c r' h
    rw [relaxDen] at h
    by_cases hcond : Int.emod (r + d) COIN_MIN_UNIT = 0 ∧ r + d ≤ apro
    · rw [if_pos hcond] at h
      injection h with h
      rw [Prod.mk.injEq] at h
      obtain ⟨h1, h2⟩ := h
      subst h1
      subst h2
      refine ⟨Int.natCast_nonneg m, by push_cast; omega, by push_cast; ring,
        hcond.1, hcond.2⟩
    · rw [if_neg hcond] at h
      obtain ⟨h1, h2, h3, h4, h5⟩ := ih (r + d) c r' h
      exact ⟨h1, by push_cast at h2 ⊢; omega, by push_cast at h3 ⊢; linarith, h4, h5⟩

theorem relaxLoop_spec (apro : Int) (L : List Int) (hL : L.Nodup) :
    ∀ (l : List Int) (used : Int → Int) (r : Int) (u2 : Int → Int) (r2 : Int),
      (∀ x ∈ l, x ∈ L) →
      relaxLoop apro l used r = some (u2, r2) →
      sumW L u2 + r2 = sumW L used + r ∧
      (∀ x, u2 x = used x ∨ (0 ≤ u2 x ∧ u2 x ≤ used x)) ∧
      Int.emod r2 COIN_MIN_UNIT = 0 ∧ r2 ≤ apro := by
  intro l
  induction l with
  | nil => intro used r u2 r2 _ h; cases h
  | cons d rest ih =>
    intro used r u2 r2 hsub h
    rw [relaxLoop] at h
    cases hm : relaxDen apro d (used d).toNat r with
    | some p =>
      obtain ⟨c, rr⟩ := p
      rw [hm] at h
      injection h with h
      rw [Prod.mk.injEq] at h
      obtain ⟨h1, h2⟩ := h
      subst h1
      subst h2
      obtain ⟨hc0, hcle, hcons, hmod, hle⟩ := relaxDen_spec apro d _ r c rr hm
      have hpos : 0 < (used d).toNat := by
        rcases Nat.eq_zero_or_pos (used d).toNat with hz | hp
        · rw [hz] at hm; cases hm
        · exact hp
      have hcast : ((used d).toNat : Int) = used d := Int.toNat_of_nonneg (by omega)
      refine ⟨?_, fun x => ?_, hmod, hle⟩
      · rw [sumW_update hL (hsub d (List.mem_cons_self _ _))]
        rw [hcast] at hcons
        linarith
      · by_cases hxd : x = d
        · subst hxd
          rw [Function.update_same]
          exact Or.inr ⟨hc0, by rw [hcast] at hcle; exact hcle⟩
        · rw [Function.update_noteq hxd]
          exact Or.inl rfl
    | none =>
      rw [hm] at h
      by_cases hud : 0 < used d
      · rw [if_pos hud] at h
        obtain ⟨ihc, ihb, ihm, ihle⟩ :=
          ih _ _ u2 r2 (fun x hx => hsub x (List.mem_cons_of_mem _ hx)) h
        have hcast : ((used d).toNat : Int) = used d := Int.toNat_of_nonneg (le_of_lt hud)
        refine ⟨?_, fun x => ?_, ihm, ihle⟩
        · rw [ihc, sumW_update hL (hsub d (List.mem_cons_self _ _)), hcast]
          ring
        · rcases ihb x with hb | hb
          · by_cases hxd : x = d
            · subst hxd
              rw [Function.update_same] at hb
              exact Or.inr ⟨le_of_eq hb.symm, by rw [hb]; exact le_of_lt hud⟩
            · rw [Function.update_noteq hxd] at hb
              exact Or.inl hb
          · by_cases hxd : x = d
            · subst hxd
              rw [Function.update_same] at hb
              exact Or.inr ⟨hb.1, le_trans hb.2 (le_of_lt hud)⟩
            · rw [Function.update_noteq hxd] at hb
              exact Or.inr hb
      · rw [if_neg hud] at h
        have hzz : ((used d).toNat : Int) = 0 := by
          rw [Int.toNat_of_nonpos (not_lt.mp hud)]
          rfl
        obtain ⟨ihc, ihb, ihm, ihle⟩ :=
          ih _ _ u2 r2 (fun x hx => hsub x (List.mem_cons_of_mem _ hx)) h
        rw [hzz, mul_zero, add_zero] at ihc
        exact ⟨ihc, ihb, ihm, ihle⟩

theorem bdGet_keyMap (l : List Int) (u : Int → Int) (d : Int) :
    bdGet (l.map (fun x => (x, u x))) d = if d ∈ l then u d else 0 := by
  induction l with
  | nil => simp [bdGet]
  | cons a t ih =>
    rw [List.map_cons, bdGet_cons, ih]
    by_cases had : a = d
    · subst had
      rw [if_pos rfl, if_pos (List.mem_cons_self _ _)]
    · rw [if_neg had]
      by_cases hdt : d ∈ t
      · rw [if_pos hdt, if_pos (List.mem_cons_of_mem _ hdt)]
      · have hnm : d ∉ a :: t := by
          rw [List.mem_cons]
          rintro (hc | hc)
          · exact had hc.symm
          · exact hdt hc
        rw [if_neg hdt, if_neg hnm]

theorem bdGet_usedToBreakdown (u : Int → Int) (d : Int) :
    bdGet (usedToBreakdown u) d
      = if d ∈ NOTE_DENOMS ∧ 0 < u d then u d else 0 := by
  unfold usedToBreakdown
  rw [bdGet_keyMap]
  by_cases h : d ∈ NOTE_DENOMS ∧ 0 < u d
  · rw [if_pos h, if_pos (List.mem_filter.mpr ⟨h.1, by simpa using h.2⟩)]
  · rw [if_neg h, if_neg (fun hc => h (by
      obtain ⟨h1, h2⟩ := List.mem_filter.mp hc
      exact ⟨h1, by simpa using h2⟩))]

theorem bdTotal_usedToBreakdown {u : Int → Int} (h : ∀ x ∈ NOTE_DENOMS, 0 ≤ u x) :
    bdTotal (usedToBreakdown u) = sumW NOTE_DENOMS u := by
  unfold usedToBreakdown sumW
  generalize hnd : NOTE_DENOMS = l
  rw [hnd] at h
  clear hnd
  induction l with
  | nil => simp [bdTotal]
  | cons a t ih =>
    rw [List.filter_cons]
    by_cases ha : 0 < u a
    · rw [if_pos (by simpa using ha)]
      rw [List.map_cons, List.map_cons, List.sum_cons]
      rw [show bdTotal ((a, u a) :: (t.filter (fun d => 0 < u d)).map (fun d => (d, u d)))
          = a * u a + bdTotal ((t.filter (fun d => 0 < u d)).map (fun d => (d, u d))) from
        by simp [bdTotal]]
      rw [ih (fun x hx => h x (List.mem_cons_of_mem _ hx))]
    · rw [if_neg (by simpa using ha)]
      have hz : u a = 0 :=
        le_antisymm (not_lt.mp ha) (h a (List.mem_cons_self _ _))
      rw [List.map_cons, List.sum_cons, hz, mul_zero, zero_add]
      exact ih (fun x hx => h x (List.mem_cons_of_mem _ hx))

theorem bdKeys_usedToBreakdown (u : Int → Int) :
    bdKeys (usedToBreakdown u) = NOTE_DENOMS.filter (fun d => 0 < u d) := by
  unfold bdKeys usedToBreakdown
  rw [List.map_map]
  exact List.map_id'' (fun x => rfl) _

/-- Modelled from the spec: the target can be met by some breakdown that
respects the drawer — note counts within stock, pool portion within the pool
and a multiple of `COIN_MIN_UNIT`, totalling exactly the target. -/
def FeasibleMixed (change : Int) (notes : Int → Int) (apro : Int) : Prop :=
  ∃ (c : Int → Nat) (pool : Int),
    (∀ d ∈ NOTE_DENOMS, ((c d : Int)) ≤ notes d) ∧
    0 ≤ pool ∧ pool ≤ apro ∧ Int.emod pool COIN_MIN_UNIT = 0 ∧
    (NOTE_DENOMS.map (fun d => d * (c d : Int))).sum + pool = change

/-- Modelled from the spec: the target can be met from discrete notes alone,
respecting per-denomination stock. -/
def FeasibleDiscrete (change : Int) (notes : Int → Int) : Prop :=
  ∃ c : Int → Nat, (∀ d ∈ NOTE_DENOMS, ((c d : Int)) ≤ notes d) ∧
    (NOTE_DENOMS.map (fun d => d * (c d : Int))).sum = change

/-- Claim C1: whenever the change engine — phase-1 bounded search or the
phase-2 greedy-plus-pool fallback — returns a breakdown for a positive target
that is a multiple of the coin-pool unit, the breakdown's total (notes plus
pool portion) equals the target exactly, every returned note count is within
the available stock, and the pool portion is at most the drawer's pool and a
multiple of the coin-pool unit. -/
theorem claim_C1 (notes : Int → Int) (apro change : Int) (br : Breakdown) (pool : Int)
    (hn : ∀ d, 0 ≤ notes d) (ha : 0 ≤ apro) (hc : 0 < change)
    (hm : Int.emod change COIN_MIN_UNIT = 0)
    (h : change_engine change notes apro = some (br, pool)) :
    bdTotal br + pool = change ∧ (∀ d, bdGet br d ≤ notes d) ∧
      pool ≤ apro ∧ Int.emod pool COIN_MIN_UNIT = 0 := by
  have hNd : NOTE_DENOMS.Nodup := by decide
  rw [change_engine] at h
  cases hp : bounded_change_notes change notes with
  | some br0 =>
    rw [hp] at h
    injection h with h
    rw [Prod.mk.injEq] at h
    obtain ⟨rfl, rfl⟩ := h
    obtain ⟨c1, c2, c3, c4, c5⟩ := search_sound notes NOTE_DENOMS change [] br0 hNd
      (by intro x _; simp [bdKeys]) (by simp [bdKeys]) hp
    refine ⟨by rw [c1]; simp [bdTotal], fun d => ?_, ha, by decide⟩
    by_cases hk : d ∈ bdKeys br0
    · rcases c3 d hk with hd | hd
      · exact c4 (d, bdGet br0 d) (key_mem_entry hk) hd
      · simp [bdKeys] at hd
    · rw [bdGet_not_mem hk]
      exact hn d
  | none =>
    rw [hp] at h
    have hzero : ∀ x ∈ NOTE_DENOMS, (fun _ : Int => (0 : Int)) x = 0 := fun x _ => rfl
    obtain ⟨gc, gb⟩ := greedy_spec notes NOTE_DENOMS hNd NOTE_DENOMS hNd
      (fun x hx => hx) (fun _ => 0) change hzero
    have hgz : sumW NOTE_DENOMS (fun _ : Int => (0 : Int)) = 0 := by
      simp [sumW]
    rw [hgz, zero_add] at gc
    set gp := greedy_pass notes NOTE_DENOMS (fun _ => 0) change with hgp
    have hg_nonneg : ∀ x ∈ NOTE_DENOMS, 0 ≤ gp.1 x := by
      intro x _
      rcases gb x with hb | hb
      · rw [hb]
      · exact le_of_lt hb.2.1
    have hg_le : ∀ x, 0 < gp.1 x → gp.1 x ≤ notes x := by
      intro x hx
      rcases gb x with hb | hb
      · rw [hb] at hx; exact absurd hx (lt_irrefl 0)
      · exact hb.2.2
    by_cases htest : Int.emod gp.2 COIN_MIN_UNIT = 0 ∧ gp.2 ≤ apro
    · rw [if_pos htest] at h
      injection h with h
      rw [Prod.mk.injEq] at h
      obtain ⟨rfl, rfl⟩ := h
      refine ⟨?_, fun d => ?_, htest.2, htest.1⟩
      · rw [bdTotal_usedToBreakdown hg_nonneg]
        exact gc
      · rw [bdGet_usedToBreakdown]
        by_cases hcnd : d ∈ NOTE_DENOMS ∧ 0 < gp.1 d
        · rw [if_pos hcnd]
          exact hg_le d hcnd.2
        · rw [if_neg hcnd]
          exact hn d
    · rw [if_neg htest] at h
      cases hrel : relaxLoop apro NOTE_DENOMS gp.1 gp.2 with
      | none => rw [hrel] at h; cases h
      | some q =>
        obtain ⟨u2, r2⟩ := q
        rw [hrel] at h
        injection h with h
        rw [Prod.mk.injEq] at h
        obtain ⟨rfl, rfl⟩ := h
        obtain ⟨rc, rb, rm, rle⟩ := relaxLoop_spec apro NOTE_DENOMS hNd NOTE_DENOMS
          gp.1 gp.2 u2 r2 (fun x hx => hx) hrel
        have hu2_nonneg : ∀ x ∈ NOTE_DENOMS, 0 ≤ u2 x := by
          intro x hx
          rcases rb x with hb | hb
          · rw [hb]; exact hg_nonneg x hx
          · exact hb.1
        refine ⟨?_, fun d => ?_, rle, rm⟩
        · rw [bdTotal_usedToBreakdown hu2_nonneg, rc, gc]
        · rw [bdGet_usedToBreakdown]
          by_cases hcnd : d ∈ NOTE_DENOMS ∧ 0 < u2 d
          · rw [if_pos hcnd]
            rcases rb d with hb | hb
            · rw [hb]
              exact hg_le d (by rw [hb] at hcnd; exact hcnd.2)
            · refine le_trans hb.2 ?_
              have : 0 < gp.1 d := lt_of_lt_of_le hcnd.2 hb.2
              exact hg_le d this
          · rw [if_neg hcnd]
            exact hn d

/-- Witness for C1 at a concrete input: the reference scenario where 1000 is
due back and two 1000-notes are in stock. -/
theorem claim_C1_witness :
    bdTotal [((1000 : Int), 1)] + 0 = 1000 ∧
      (∀ d, bdGet [((1000 : Int), 1)] d ≤ (fun d => if d = 1000 then 2 else 0 : Int → Int) d) ∧
      (0 : Int) ≤ 140 ∧ Int.emod 0 COIN_MIN_UNIT = 0 :=
  claim_C1 (fun d => if d = 1000 then 2 else 0) 140 1000 [((1000 : Int), 1)] 0
    (by intro d; by_cases h : d = 1000 <;> simp [h]) (by decide) (by decide) (by decide)
    (by decide)

/-- The stock of the C2 counterexample: one 500 note, three 200 notes. -/
def cexStock : Int → Int := fun d => if d = 500 then 1 else if d = 200 then 3 else 0

/-- Claim C2, counterexample: with stock `{500: 1, 200: 3}`, pool `5` and
target `605` (positive, a multiple of the unit), the breakdown
`{200: 3}` plus pool `5` is feasible, yet the engine reports failure: phase 1
cannot hit 605 with notes alone, the greedy pass commits the 500 leaving
remainder 105 that the pool cannot cover, and relaxation only ever grows the
remainder.  So the `NoFeasibleChange` signal is not definitive. -/
theorem claim_C2_cex :
    (0 : Int) < 605 ∧ Int.emod 605 COIN_MIN_UNIT = 0 ∧
      FeasibleMixed 605 cexStock 5 ∧
      change_engine 605 cexStock 5 = none := by
  refine ⟨by decide, by decide,
    ⟨fun d => if d = 200 then 3 else 0, 5, by decide, by decide, by decide, by decide,
      by decide⟩,
    by decide⟩

/-- Claim C2 (amended): the failure signal is definitive only for all-discrete
breakdowns: whenever some notes-only breakdown within stock meets the target,
the engine returns a breakdown (phase 1 is a complete bounded search), but a
target reachable only by dipping into the pool can be missed, because the
phase-2 greedy commitment is never backtracked below the greedy choice for a
feasibility test that its relaxation can still satisfy. -/
theorem claim_C2 (notes : Int → Int) (apro change : Int)
    (hf : FeasibleDiscrete change notes) :
    change_engine change notes apro ≠ none := by
  have hcomp : bounded_change_notes change notes ≠ none := by
    apply search_complete notes NOTE_DENOMS change [] (by decide)
    exact hf
  cases hb : bounded_change_notes change notes with
  | none => exact absurd hb hcomp
  | some br =>
    rw [change_engine, hb]
    simp

/-- Witness for C2 at a concrete input. -/
theorem claim_C2_witness :
    change_engine 600 (fun d => if d = 200 then 3 else 0) 0 ≠ none :=
  claim_C2 (fun d => if d = 200 then 3 else 0) 0 600
    ⟨fun d => if d = 200 then 3 else 0, by decide, by decide⟩
/-! ### The undo inverse law (C4) -/

theorem bdGet_filterMap_ite (L : List Int) (v : Int → Int) (d : Int) :
    bdGet (L.filterMap (fun k => if v k ≠ 0 then some (k, v k) else none)) d
      = if d ∈ L then v d else 0 := by
  induction L with
  | nil => simp [bdGet]
  | cons a t ih =>
    rw [List.filterMap_cons]
    by_cases hv : v a ≠ 0
    · rw [if_pos hv, bdGet_cons, ih]
      by_cases had : a = d
      · subst had
        rw [if_pos rfl, if_pos (List.mem_cons_self _ _)]
      · rw [if_neg had]
        by_cases hdt : d ∈ t
        · rw [if_pos hdt, if_pos (List.mem_cons_of_mem _ hdt)]
        · have hnm : d ∉ a :: t := by
            rw [List.mem_cons]
            rintro (hc | hc)
            · exact had hc.symm
            · exact hdt hc
          rw [if_neg hdt, if_neg hnm]
    · rw [if_neg hv, ih]
      push_neg at hv
      by_cases had : a = d
      · rw [← had]
        rw [if_pos (List.mem_cons_self _ _)]
        by_cases hdt : a ∈ t
        · rw [if_pos hdt]
        · rw [if_neg hdt, hv]
      · by_cases hdt : d ∈ t
        · rw [if_pos hdt, if_pos (List.mem_cons_of_mem _ hdt)]
        · have hnm : d ∉ a :: t := by
            rw [List.mem_cons]
            rintro (hc | hc)
            · exact had hc.symm
            · exact hdt hc
          rw [if_neg hdt, if_neg hnm]

theorem bdGet_tx_delta (tn gn : Breakdown) (d : Int) :
    bdGet (tx_delta tn gn) d = bdGet tn d - bdGet gn d := by
  have hmain := bdGet_filterMap_ite ((bdKeys tn ++ bdKeys gn).dedup)
    (fun k => bdGet tn k - bdGet gn k) d
  simp only at hmain
  rw [show tx_delta tn gn
      = (bdKeys tn ++ bdKeys gn).dedup.filterMap
          (fun k => if bdGet tn k - bdGet gn k ≠ 0
            then some (k, bdGet tn k - bdGet gn k) else none) from rfl]
  rw [hmain]
  by_cases h : d ∈ (bdKeys tn ++ bdKeys gn).dedup
  · rw [if_pos h]
  · rw [if_neg h]
    rw [List.mem_dedup, List.mem_append] at h
    push_neg at h
    rw [bdGet_not_mem h.1, bdGet_not_mem h.2]
    ring

theorem engine_keys {notes : Int → Int} {apro change : Int} {br : Breakdown} {pool : Int}
    (h : change_engine change notes apro = some (br, pool)) :
    (bdKeys br).Nodup ∧ ∀ x ∈ bdKeys br, x ∈ NOTE_DENOMS := by
  have hNd : NOTE_DENOMS.Nodup := by decide
  rw [change_engine] at h
  cases hp : bounded_change_notes change notes with
  | some br0 =>
    rw [hp] at h
    injection h with h
    rw [Prod.mk.injEq] at h
    obtain ⟨rfl, rfl⟩ := h
    obtain ⟨_, c2, c3, _, _⟩ := search_sound notes NOTE_DENOMS change [] br0 hNd
      (by intro x _; simp [bdKeys]) (by simp [bdKeys]) hp
    refine ⟨c2, fun x hx => ?_⟩
    rcases c3 x hx with hm | hm
    · exact hm
    · simp [bdKeys] at hm
  | none =>
    rw [hp] at h
    have husd : ∀ (u : Int → Int),
        (bdKeys (usedToBreakdown u)).Nodup ∧
          ∀ x ∈ bdKeys (usedToBreakdown u), x ∈ NOTE_DENOMS := by
      intro u
      rw [bdKeys_usedToBreakdown]
      exact ⟨hNd.filter _, fun x hx => (List.mem_filter.mp hx).1⟩
    by_cases htest : Int.emod (greedy_pass notes NOTE_DENOMS (fun _ => 0) change).2
        COIN_MIN_UNIT = 0 ∧ (greedy_pass notes NOTE_DENOMS (fun _ => 0) change).2 ≤ apro
    · rw [if_pos htest] at h
      injection h with h
      rw [Prod.mk.injEq] at h
      obtain ⟨rfl, rfl⟩ := h
      exact husd _
    · rw [if_neg htest] at h
      cases hrel : relaxLoop apro NOTE_DENOMS
          (greedy_pass notes NOTE_DENOMS (fun _ => 0) change).1
          (greedy_pass notes NOTE_DENOMS (fun _ => 0) change).2 with
      | none => rw [hrel] at h; cases h
      | some q =>
        rw [hrel] at h
        injection h with h
        rw [Prod.mk.injEq] at h
        obtain ⟨rfl, rfl⟩ := h
        exact husd _

theorem undo_restore (dw dw2 : Drawer) (r : TxRec)
    (h1 : ∀ d ∈ NOTE_DENOMS, dw2.notes d - bdGet r.delta_notes d = dw.notes d)
    (h2 : ∀ d, d ∉ NOTE_DENOMS → dw2.notes d = dw.notes d)
    (h3 : dw2.apro - r.delta_apro = dw.apro)
    (hnn : ∀ d, 0 ≤ dw.notes d) (hap : 0 ≤ dw.apro) :
    undo_record dw2 r = some dw := by
  have hNd : NOTE_DENOMS.Nodup := by decide
  obtain ⟨hiff, hsome⟩ := undo_notes_spec r.delta_notes NOTE_DENOMS dw2.notes hNd
  cases hu : undo_notes r.delta_notes NOTE_DENOMS dw2.notes with
  | none =>
    obtain ⟨d, hd, hlt⟩ := hiff.mp hu
    rw [h1 d hd] at hlt
    exact absurd hlt (not_lt.mpr (hnn d))
  | some g =>
    obtain ⟨hin, hout⟩ := hsome g hu
    have hg : g = dw.notes := by
      funext d
      by_cases hd : d ∈ NOTE_DENOMS
      · rw [hin d hd, h1 d hd]
      · rw [hout d hd, h2 d hd]
    simp only [undo_record, hu]
    rw [if_neg (by rw [h3]; exact not_lt.mpr hap), hg, h3]

theorem truncate_append_record (l : List String) (x : String) (hx : ¬ isBlankLine x) :
    truncate_last_tx (some (l ++ [x])) = some l := by
  have ht : truncate_rev ((l ++ [x]).reverse) = some l.reverse := by
    rw [List.reverse_append, List.reverse_singleton, List.singleton_append,
      truncate_rev, if_neg hx]
  simp only [truncate_last_tx, ht, List.reverse_reverse]

theorem read_last_head (parse : String → Option TxRec) (ser : TxRec → String)
    (m : List TxRec) (hser : ∀ r ∈ m, parse (ser r) = some r)
    (hblank : ∀ r ∈ m, ¬ isBlankLine (ser r)) :
    read_last_scan parse (m.map ser) = m.head? := by
  cases m with
  | nil => rfl
  | cons r t =>
    rw [List.map_cons, read_last_scan, if_neg (hblank r (List.mem_cons_self _ _)),
      hser r (List.mem_cons_self _ _)]
    rfl

/-- Claim C4: the undo inverse law.  For every transaction that succeeds —
taking the drawer from `dw` to `dw2` by adding the tendered breakdown and
removing the returned one, and appending a record whose delta is tendered
minus returned per denomination and for the pool — applying undo's inverse
delta against `dw2` immediately afterwards (no intervening transactions)
restores `dw` exactly; and after the transaction's record is appended and
undo truncates it away again, `readLast` returns the record appended before
it, or absent if there was none. -/
theorem claim_C4 (ts : String) (dw : Drawer) (amount : Int) (tn : Breakdown) (ta : Int)
    (prior : List TxRec) (parse : String → Option TxRec) (ser : TxRec → String)
    (hnn : ∀ d, 0 ≤ dw.notes d) (hap : 0 ≤ dw.apro)
    (hkeys : ∀ x ∈ bdKeys tn, x ∈ NOTE_DENOMS) (hNdtn : (bdKeys tn).Nodup)
    (hser : ∀ r ∈ prior, parse (ser r) = some r)
    (hblank : ∀ r : TxRec, ¬ isBlankLine (ser r)) :
    ∀ (dw2 : Drawer) (rec : TxRec), run_tx ts dw amount tn ta = some (dw2, rec) →
      undo_record dw2 rec = some dw ∧
      read_last_tx parse
          (truncate_last_tx (some (append_txlog (some (prior.map ser)) (ser rec))))
        = prior.getLast? := by
  intro dw2 rec h
  have hlog : read_last_tx parse
      (truncate_last_tx (some (append_txlog (some (prior.map ser)) (ser rec))))
      = prior.getLast? := by
    rw [show append_txlog (some (prior.map ser)) (ser rec)
        = prior.map ser ++ [ser rec] from rfl]
    rw [truncate_append_record _ _ (hblank rec), read_last_tx,
      ← List.map_reverse, read_last_head parse ser prior.reverse
        (fun r hr => hser r (List.mem_reverse.mp hr))
        (fun r _ => hblank r),
      List.head?_reverse]
  refine ⟨?_, hlog⟩
  have hget0 : ∀ d, d ∉ NOTE_DENOMS → bdGet tn d = 0 :=
    fun d hd => bdGet_not_mem (fun hc => hd (hkeys d hc))
  rw [run_tx] at h
  by_cases hlt : bdTotal tn + ta < amount
  · rw [if_pos hlt] at h
    cases h
  · rw [if_neg hlt] at h
    cases hadd : add_apro (add_notes dw tn) ta with
    | none => rw [hadd, Option.none_bind] at h; cases h
    | some dwm =>
      rw [hadd, Option.some_bind] at h
      have hta : ¬ ta < 0 := by
        intro hc
        rw [add_apro, if_pos hc] at hadd
        cases hadd
      have hdmn : dwm.notes = (add_notes dw tn).notes := by
        rw [add_apro, if_neg hta] at hadd
        injection hadd with hadd
        rw [← hadd]
      have hdma : dwm.apro = dw.apro + ta := by
        rw [add_apro, if_neg hta] at hadd
        injection hadd with hadd
        rw [← hadd]
        rfl
      by_cases hch : bdTotal tn + ta - amount = 0
      · rw [if_pos hch] at h
        injection h with h
        rw [Prod.mk.injEq] at h
        obtain ⟨h4, h5⟩ := h
        subst h4
        subst h5
        refine undo_restore dw _ _ (fun d _ => ?_) (fun d hd => ?_)
          (by rw [hdma]; ring) hnn hap
        · show dwm.notes d - bdGet tn d = dw.notes d
          rw [hdmn, add_notes_get hNdtn]
          ring
        · show dwm.notes d = dw.notes d
          rw [hdmn, add_notes_get hNdtn, hget0 d hd, add_zero]
      · rw [if_neg hch] at h
        cases heng : change_engine (bdTotal tn + ta - amount) dwm.notes dwm.apro with
        | none => rw [heng, Option.none_bind] at h; cases h
        | some brp =>
          rw [heng, Option.some_bind] at h
          obtain ⟨br, pool⟩ := brp
          obtain ⟨hbrNd, hbrKeys⟩ := engine_keys heng
          cases hrem : remove_notes dwm br with
          | none => rw [hrem, Option.none_bind] at h; cases h
          | some dw3 =>
            rw [hrem, Option.some_bind] at h
            obtain ⟨hrg, hra⟩ := remove_notes_get hbrNd hrem
            cases hpl : (if pool = 0 then some dw3 else remove_apro dw3 pool) with
            | none => rw [hpl, Option.none_bind] at h; cases h
            | some dw4 =>
              rw [hpl, Option.some_bind] at h
              injection h with h
              rw [Prod.mk.injEq] at h
              obtain ⟨h4, h5⟩ := h
              subst h4
              subst h5
              have hdw4 : dw4.notes = dw3.notes ∧ dw4.apro = dw3.apro - pool := by
                by_cases hp0 : pool = 0
                · rw [if_pos hp0] at hpl
                  injection hpl with hpl
                  subst hpl
                  exact ⟨rfl, by rw [hp0, sub_zero]⟩
                · rw [if_neg hp0, remove_apro] at hpl
                  by_cases hc1 : pool < 0
                  · rw [if_pos hc1] at hpl; cases hpl
                  · rw [if_neg hc1] at hpl
                    by_cases hc2 : dw3.apro < pool
                    · rw [if_pos hc2] at hpl; cases hpl
                    · rw [if_neg hc2] at hpl
                      injection hpl with hpl
                      subst hpl
                      exact ⟨rfl, rfl⟩
              have hbr0 : ∀ d, d ∉ NOTE_DENOMS → bdGet br d = 0 :=
                fun d hd => bdGet_not_mem (fun hc => hd (hbrKeys d hc))
              refine undo_restore dw _ _ (fun d _ => ?_) (fun d hd => ?_) ?_ hnn hap
              · show dw4.notes d - bdGet (tx_delta tn br) d = dw.notes d
                rw [hdw4.1, hrg d, bdGet_tx_delta, hdmn, add_notes_get hNdtn]
                ring
              · show dw4.notes d = dw.notes d
                rw [hdw4.1, hrg d, hdmn, add_notes_get hNdtn, hget0 d hd, hbr0 d hd]
                ring
              · show dw4.apro - (ta - pool) = dw.apro
                rw [hdw4.2, hra, hdma]
                ring

/-- The concrete starting drawer of the C4 witness: two 1000 notes, empty pool. -/
def c4dw : Drawer := { notes := fun d => if d = 1000 then 2 else 0, apro := 0 }

/-- The record produced by the C4 witness transaction. -/
def c4rec : TxRec :=
  { ts := "t", amount_due := 1000, given_notes := [(2000, 1)], given_apro := 0,
    change_notes := [(1000, 1)], change_apro := 0,
    delta_notes := [(2000, 1), (1000, -1)], delta_apro := 0, total_after := 3000 }

/-- Witness for C4: tender one 2000 note against 1000 due; the engine returns
one 1000 note; undo restores the original drawer and the (previously empty)
truncated log reads back as absent. -/
theorem claim_C4_witness :
    undo_record
        { notes := Function.update
            (Function.update c4dw.notes 2000 (c4dw.notes 2000 + 1)) 1000
            (Function.update c4dw.notes 2000 (c4dw.notes 2000 + 1) 1000 - 1),
          apro := 0 }
        c4rec = some c4dw ∧
      read_last_tx (fun _ => none)
          (truncate_last_tx (some (append_txlog
            (some (([] : List TxRec).map (fun _ => "x"))) "x")))
        = ([] : List TxRec).getLast? :=
  claim_C4 "t" c4dw 1000 [((2000 : Int), 1)] 0 [] (fun _ => none) (fun _ => "x")
    (by intro d; by_cases h : d = 1000 <;> simp [c4dw, h])
    (by simp [c4dw])
    (by decide) (by decide)
    (fun r hr => absurd hr (List.not_mem_nil r))
    (fun r => by show ¬ isBlankLine "x" = true; decide)
    _ c4rec rfl
/-! ### The relaxation order (C3) -/

/-- The committed counts of the C3 counterexample: one 1000 and one 200. -/
def c3used : Int → Int := fun d => if d = 1000 then 1 else if d = 200 then 1 else 0

/-- Claim C3, counterexample: with one 1000 and one 200 committed, remainder
105 and an empty pool — so the pool cannot cover the remainder — the code's
relaxation returns the unit of 1000 first and then the unit of 200 (its
`for` loop walks `sorted(NOTE_DENOMS, reverse=True)`, largest first), while
the claimed smallest-denomination-upward process would return the 200 first:
the single-unit return orders differ. -/
theorem claim_C3_cex :
    ¬(Int.emod 105 COIN_MIN_UNIT = 0 ∧ (105 : Int) ≤ 0) ∧
      (relaxLoopT 0 NOTE_DENOMS c3used 105).1 = [1000, 200] ∧
      (relaxSmallestFirst 0 NOTE_DENOMS c3used 105).1 = [200, 1000] ∧
      (relaxLoopT 0 NOTE_DENOMS c3used 105).1
        ≠ (relaxSmallestFirst 0 NOTE_DENOMS c3used 105).1 := by
  refine ⟨by decide, by decide, by decide, by decide⟩

theorem foldMax_from_some :
    ∀ (l : List Int) (d : Int), (∀ x ∈ l, x ≤ d) →
      l.foldl (fun acc x => match acc with | none => some x | some m => some (max m x))
        (some d) = some d := by
  intro l
  induction l with
  | nil => intro d _; rfl
  | cons a t ih =>
    intro d hle
    rw [List.foldl_cons]
    have hstep : (match some d with
        | none => some a
        | some m => some (max m a) : Option Int) = some d := by
      simp only []
      rw [max_eq_left (hle a (List.mem_cons_self _ _))]
    rw [hstep]
    exact ih d (fun x hx => hle x (List.mem_cons_of_mem _ hx))

theorem maxInUse_cons_pos {used : Int → Int} {d : Int} {rest : List Int}
    (hpos : 0 < used d) (hlt : ∀ x ∈ rest, x < d) :
    maxInUse used (d :: rest) = some d := by
  unfold maxInUse
  rw [List.filter_cons, if_pos (by simpa using hpos), List.foldl_cons]
  have hstep : (match (none : Option Int) with
      | none => some d
      | some m => some (max m d) : Option Int) = some d := rfl
  rw [hstep]
  apply foldMax_from_some
  intro x hx
  exact le_of_lt (hlt x (List.mem_filter.mp hx).1)

theorem maxInUse_cons_nonpos {used : Int → Int} {d : Int} (rest : List Int)
    (hnp : ¬ 0 < used d) :
    maxInUse used (d :: rest) = maxInUse used rest := by
  unfold maxInUse
  rw [List.filter_cons, if_neg (by simpa using hnp)]

theorem foldMax_prop (P : Int → Prop) (hP : ∀ a b, P a → P b → P (max a b)) :
    ∀ (l : List Int), (∀ x ∈ l, P x) → ∀ (acc : Option Int),
      (∀ a, acc = some a → P a) → ∀ m,
      l.foldl (fun acc x => match acc with | none => some x | some m => some (max m x))
        acc = some m → P m := by
  intro l
  induction l with
  | nil =>
    intro _ acc hacc m h
    exact hacc m h
  | cons a t ih =>
    intro hl acc hacc m h
    rw [List.foldl_cons] at h
    have hPa : P a := hl a (List.mem_cons_self _ _)
    refine ih (fun x hx => hl x (List.mem_cons_of_mem _ hx)) _ ?_ m h
    intro b hb
    cases acc with
    | none =>
      simp only [] at hb
      injection hb with hb
      rw [← hb]
      exact hPa
    | some mm =>
      simp only [] at hb
      injection hb with hb
      rw [← hb]
      rcases max_choice mm a with hmx | hmx
      · rw [hmx]; exact hacc mm rfl
      · rw [hmx]; exact hPa

theorem maxInUse_mem {used : Int → Int} {l : List Int} {m : Int}
    (h : maxInUse used l = some m) : m ∈ l ∧ 0 < used m := by
  refine foldMax_prop (fun x => x ∈ l ∧ 0 < used x) ?_
    (l.filter (fun d => 0 < used d)) ?_ none (by intro a ha; cases ha) m h
  · intro a b ha hb
    rcases max_choice a b with hmx | hmx
    · rw [hmx]; exact ha
    · rw [hmx]; exact hb
  · intro x hx
    obtain ⟨h1, h2⟩ := List.mem_filter.mp hx
    exact ⟨h1, by simpa using h2⟩

theorem usedWeight_cons (d : Int) (l : List Int) (u : Int → Int) :
    usedWeight (d :: l) u = (u d).toNat + usedWeight l u := by
  simp [usedWeight]

theorem usedWeight_update_not_mem {d : Int} {l : List Int} (hd : d ∉ l)
    (u : Int → Int) (v : Int) :
    usedWeight l (Function.update u d v) = usedWeight l u := by
  unfold usedWeight
  congr 1
  apply List.map_congr_left
  intro x hx
  rw [Function.update_noteq (fun hc => hd (mem_of_eq_mem hc hx))]

theorem relaxLargestGo_drop_head (apro d : Int) (rest : List Int) :
    ∀ (fuel : Nat) (used : Int → Int) (r : Int), used d ≤ 0 →
      relaxLargestGo apro (d :: rest) fuel used r
        = relaxLargestGo apro rest fuel used r := by
  intro fuel
  induction fuel with
  | zero => intro used r _; rfl
  | succ f ih =>
    intro used r hud
    rw [relaxLargestGo, relaxLargestGo, maxInUse_cons_nonpos rest (not_lt.mpr hud)]
    cases hm : maxInUse used rest with
    | none => rfl
    | some m =>
      obtain ⟨hmem, hmp⟩ := maxInUse_mem hm
      have hmd : m ≠ d := fun hc => absurd (hc ▸ hmp) (not_lt.mpr hud)
      have hud' : Function.update used m (used m - 1) d ≤ 0 := by
        rw [Function.update_noteq (fun hc => hmd hc.symm)]
        exact hud
      simp only []
      by_cases htest : Int.emod (r + m) COIN_MIN_UNIT = 0 ∧ r + m ≤ apro
      · rw [if_pos htest, if_pos htest]
      · rw [if_neg htest, if_neg htest, ih _ _ hud']

theorem relaxLoopT_cons_step (apro d : Int) (rest : List Int) (used : Int → Int) (r : Int)
    (m : Nat) (hn : (used d).toNat = m + 1)
    (htest : ¬(Int.emod (r + d) COIN_MIN_UNIT = 0 ∧ r + d ≤ apro)) :
    relaxLoopT apro (d :: rest) used r
      = (d :: (relaxLoopT apro (d :: rest) (Function.update used d (m : Int)) (r + d)).1,
         (relaxLoopT apro (d :: rest) (Function.update used d (m : Int)) (r + d)).2) := by
  have hu1 : (Function.update used d (m : Int)) d = (m : Int) := Function.update_same _ _ _
  have hu1n : ((Function.update used d (m : Int)) d).toNat = m := by
    rw [hu1]
    omega
  rw [relaxLoopT, hn, relaxDenT]
  simp only []
  rw [if_neg htest]
  rw [relaxLoopT, hu1n]
  cases hp2 : relaxDenT apro d m (r + d) with
  | mk tr2 res2 =>
    cases res2 with
    | some pr =>
      obtain ⟨c, r2⟩ := pr
      simp only []
      rw [Function.update_idem]
    | none =>
      simp only []
      have hudpos : 0 < used d := by omega
      rw [if_pos hudpos]
      have hused2 : (if 0 < Function.update used d (m : Int) d
          then Function.update (Function.update used d (m : Int)) d 0
          else Function.update used d (m : Int)) = Function.update used d 0 := by
        rw [hu1]
        by_cases hm0 : 0 < (m : Int)
        · rw [if_pos hm0, Function.update_idem]
        · rw [if_neg hm0, show (m : Int) = 0 from by omega]
      rw [hused2]
      have hr : r + d * (((m + 1 : Nat)) : Int) = r + d + d * ((m : Nat) : Int) := by
        push_cast
        ring
      rw [hr, List.cons_append]

theorem relaxLoopT_eq_largest (apro : Int) :
    ∀ (denoms : List Int), List.Pairwise (· > ·) denoms →
      ∀ (used : Int → Int) (r : Int),
        relaxLoopT apro denoms used r = relaxLargestFirst apro denoms used r := by
  intro denoms
  induction denoms with
  | nil => intro _ used r; rfl
  | cons d rest ih =>
    intro hpw
    rw [List.pairwise_cons] at hpw
    obtain ⟨hd, hrest⟩ := hpw
    have hd' : ∀ x ∈ rest, x < d := fun x hx => hd x hx
    have hdnotin : d ∉ rest := fun hc => lt_irrefl d (hd d hc)
    suffices H : ∀ (n : Nat) (used : Int → Int) (r : Int), (used d).toNat = n →
        relaxLoopT apro (d :: rest) used r = relaxLargestFirst apro (d :: rest) used r by
      intro used r
      exact H _ used r rfl
    intro n
    induction n with
    | zero =>
      intro used r hn
      have hud : used d ≤ 0 := by omega
      rw [relaxLoopT, hn]
      rw [show relaxDenT apro d 0 r = ([], none) from rfl]
      simp only []
      rw [if_neg (not_lt.mpr hud)]
      rw [relaxLargestFirst, usedWeight_cons, hn,
        relaxLargestGo_drop_head apro d rest _ used _ hud]
      simp only [Nat.cast_zero, mul_zero, add_zero, zero_add, List.nil_append]
      rw [ih hrest used r, relaxLargestFirst]
    | succ m ihm =>
      intro used r hn
      have hfuel : m + 1 + usedWeight rest used = (m + usedWeight rest used) + 1 := by
        omega
      by_cases htest : Int.emod (r + d) COIN_MIN_UNIT = 0 ∧ r + d ≤ apro
      · rw [relaxLoopT, hn, relaxDenT]
        simp only []
        rw [if_pos htest]
        simp only []
        rw [relaxLargestFirst, usedWeight_cons, hn, hfuel, relaxLargestGo,
          maxInUse_cons_pos (by omega : 0 < used d) hd']
        simp only []
        rw [if_pos htest]
        rw [show used d - 1 = (m : Int) from by omega]
      · rw [relaxLoopT_cons_step apro d rest used r m hn htest]
        rw [ihm (Function.update used d (m : Int)) (r + d)
          (by rw [Function.update_same]; omega)]
        rw [relaxLargestFirst, usedWeight_cons,
          show ((Function.update used d (m : Int)) d).toNat = m from
            by rw [Function.update_same]; omega,
          usedWeight_update_not_mem hdnotin used (m : Int)]
        rw [relaxLargestFirst, usedWeight_cons, hn, hfuel, relaxLargestGo,
          maxInUse_cons_pos (by omega : 0 < used d) hd']
        simp only []
        rw [if_neg htest]
        rw [show used d - 1 = (m : Int) from by omega]

/-- Claim C3 (amended): in phase 2, whenever the greedy remainder cannot be
covered by the pool, the relaxation returns one unit of the LARGEST-held
denomination currently in use back to the remaining amount — working from the
largest denomination downward, not from the smallest upward — retesting the
pool-sufficiency condition after each single-unit relaxation, until a feasible
split is found or every discrete commitment has been relaxed to zero.  Stated
as: the instrumented code loop produces exactly the trace and outcome of the
stepwise process that always picks the largest in-use denomination
(`relaxLargestFirst`). -/
theorem claim_C3 (apro : Int) (used : Int → Int) (r : Int) :
    relaxLoopT apro NOTE_DENOMS used r = relaxLargestFirst apro NOTE_DENOMS used r :=
  relaxLoopT_eq_largest apro NOTE_DENOMS (by decide) used r
